import Mathlib

/-!
Verification of the hand-rolled mDNS wire codec, the discovery/responder
packet-processing loop, and the group-cache serialization of the
esp32-elgato-light-control firmware.

Byte strings (`std::string`, raw datagram buffers) are modelled as `List Nat`
of byte values; multi-byte integers are big-endian as in the source.  Socket
I/O is outside the model: builder functions return `Option (List Nat)` where
`none` stands for the `-1` sentinel returned without sending, and the
packet-processing function returns the list of A-record replies it sends and
the list of address strings it inserts into the shared discovered-address set.
-/

set_option maxRecDepth 100000

namespace ElgatoMdns

/-- Model of `std::tolower` on one byte in the C locale (ASCII). -/
def toLowerByte (c : Nat) : Nat := if 65 ≤ c ∧ c ≤ 90 then c + 32 else c

/-- Embedding of `normalize_dns_name`: drop one trailing `'.'` (byte 46) from a
non-empty string, then lowercase every byte. -/
def normalize_dns_name (s : List Nat) : List Nat :=
  (match s.getLast? with
   | some 46 => s.dropLast
   | _ => s).map toLowerByte

/-- Embedding of `read_u16`: big-endian 16-bit read at index `i`. -/
def read_u16 (buf : List Nat) (i : Nat) : Nat :=
  (buf.getD i 0) <<< 8 ||| buf.getD (i + 1) 0

/-- Embedding of `read_u32`: big-endian 32-bit read at index `i`. -/
def read_u32 (buf : List Nat) (i : Nat) : Nat :=
  (buf.getD i 0) <<< 24 ||| (buf.getD (i + 1) 0) <<< 16 |||
    (buf.getD (i + 2) 0) <<< 8 ||| buf.getD (i + 3) 0

/-- Embedding of the `push_u16` helper: big-endian bytes of a 16-bit value. -/
def pushU16 (v : Nat) : List Nat := [(v >>> 8) &&& 255, v &&& 255]

/-- Embedding of the `push_u32` helper: big-endian bytes of a 32-bit value. -/
def pushU32 (v : Nat) : List Nat :=
  [(v >>> 24) &&& 255, (v >>> 16) &&& 255, (v >>> 8) &&& 255, v &&& 255]

/-- Decimal ASCII digits of one byte value, as printed by `inet_ntop` for one
dotted-quad component. -/
def decByte (n : Nat) : List Nat :=
  if n < 10 then [48 + n]
  else if n < 100 then [48 + n / 10, 48 + n % 10]
  else [48 + n / 100, 48 + (n / 10) % 10, 48 + n % 10]

/-- Modelled from the spec: `inet_ntop(AF_INET)` output — the four RDATA bytes
formatted as a dotted-quad decimal string (`inet_ntop` is libc code, not part
of this repository). -/
def dottedQuad (a b c d : Nat) : List Nat :=
  decByte a ++ 46 :: (decByte b ++ 46 :: (decByte c ++ 46 :: decByte d))

/-- Dotted-quad string of the first four bytes of an RDATA byte list. -/
def dottedQuadOfBytes (l : List Nat) : List Nat :=
  dottedQuad (l.getD 0 0) (l.getD 1 0) (l.getD 2 0) (l.getD 3 0)

/-! ### Name decoder (`parse_name`)

The C loop `while (i < msg_len && jumps < msg_len)` is embedded with an
explicit iteration budget (`fuel`): `parseNameAux` returns `none` only if the
budget is exhausted, and `parse_name` supplies the budget `parseFuel msgLen`,
which the termination theorem for claim C4 proves is never exhausted (so the
`getD` fallback in `parse_name` is dead).  Apart from the budget, the body is a
line-by-line transcription of the source loop, including the `jumps < msg_len`
cap and the single `offset` update before the first pointer jump. -/

/-- Iteration budget that the termination theorem for claim C4 proves sufficient. -/
def parseFuel (msgLen : Nat) : Nat := (msgLen + 1) * (msgLen + 1) + 1

/-- One-to-one embedding of the loop of `parse_name`.  State: current index
`i`, pointer-jump counter `jumps`, whether a pointer was taken (`jumped`), the
by-reference cursor `off`, and the name accumulated so far.  Returns the final
`(name, offset)` together with the final value of the `jumps` counter. -/
def parseNameAux (msg : List Nat) (msgLen : Nat) :
    Nat → Nat → Nat → Bool → Nat → List Nat → Option ((List Nat × Nat) × Nat)
  | 0, _, _, _, _, _ => none
  | fuel + 1, i, jumps, jumped, off, name =>
    if i < msgLen then
      if jumps < msgLen then
        if msg.getD i 0 &&& 192 = 192 then
          if msgLen ≤ i + 1 then some ((name, off), jumps)
          else if msgLen ≤ ((msg.getD i 0 &&& 63) <<< 8) ||| msg.getD (i + 1) 0 then
            some ((name, off), jumps)
          else
            parseNameAux msg msgLen fuel
              (((msg.getD i 0 &&& 63) <<< 8) ||| msg.getD (i + 1) 0) (jumps + 1) true
              (if jumped then off else i + 2) name
        else if msg.getD i 0 = 0 then some ((name, if jumped then off else i + 1), jumps)
        else if msgLen < i + 1 + msg.getD i 0 then some ((name, off), jumps)
        else
          parseNameAux msg msgLen fuel (i + 1 + msg.getD i 0) jumps jumped
            (if jumped then off else i + 1 + msg.getD i 0)
            (if name = []
             then (List.range (msg.getD i 0)).map fun k => msg.getD (i + 1 + k) 0
             else name ++ 46 ::
               ((List.range (msg.getD i 0)).map fun k => msg.getD (i + 1 + k) 0))
      else some ((name, off), jumps)
    else some ((name, off), jumps)

/-- Embedding of `parse_name(msg_start, msg_len, offset)`: returns the decoded
name and the final value of the by-reference `offset`. -/
def parse_name (msg : List Nat) (msgLen offset : Nat) : List Nat × Nat :=
  if msgLen ≤ offset then ([], offset)
  else ((parseNameAux msg msgLen (parseFuel msgLen) offset 0 false offset []).getD
    (([], offset), 0)).1

/-! ### Name encoder and packet builders -/

/-- One flushed label of the `push_label` helper: a length byte (`uint8_t`
truncation) followed by the label bytes; empty labels emit nothing. -/
def flushLabel (label : List Nat) : List Nat :=
  if label = [] then [] else (label.length % 256) :: label

/-- Embedding of the label-splitting `while` loop shared by `push_name` and
the query builder: scan the name, cutting at each `'.'` (byte 46) and emitting
every non-empty segment as a length-prefixed label.  `cur` is the portion of
the current segment scanned so far. -/
def pushNameLoop : List Nat → List Nat → List Nat
  | [], cur => flushLabel cur
  | c :: rest, cur =>
    if c = 46 then flushLabel cur ++ pushNameLoop rest []
    else pushNameLoop rest (cur ++ [c])

/-- Embedding of `push_name`: length-prefixed non-empty labels followed by the
zero terminator. -/
def push_name (name : List Nat) : List Nat := pushNameLoop name [] ++ [0]

/-- Length-prefixed encoding of one label (specification-side counterpart of
`flushLabel` for already-split labels). -/
def encLabel (l : List Nat) : List Nat := (l.length % 256) :: l

/-- Specification-side splitter: the list of non-empty `'.'`-separated
segments of a name (`cur` is the segment scanned so far). -/
def splitLabels : List Nat → List Nat → List (List Nat)
  | [], cur => if cur = [] then [] else [cur]
  | c :: rest, cur =>
    if c = 46 then
      (if cur = [] then splitLabels rest [] else cur :: splitLabels rest [])
    else splitLabels rest (cur ++ [c])

/-- Joining labels with `'.'` separators — the name whose labels they are. -/
def joinDots : List (List Nat) → List Nat
  | [] => []
  | [l] => l
  | l :: ls => l ++ 46 :: joinDots ls

/-- Splitter keeping empty pieces, including a trailing one (used to model
`inet_pton` component splitting). -/
def splitFull (delim : Nat) : List Nat → List Nat → List (List Nat)
  | [], cur => [cur]
  | c :: rest, cur =>
    if c = delim then cur :: splitFull delim rest []
    else splitFull delim rest (cur ++ [c])

/-- Decimal value of an ASCII digit string. -/
def digitsVal (p : List Nat) : Nat := p.foldl (fun acc c => acc * 10 + (c - 48)) 0

/-- Whether every byte is an ASCII decimal digit. -/
def allDigits (p : List Nat) : Bool := p.all fun c => 48 ≤ c && c ≤ 57

/-- Modelled from the spec: `inet_pton(AF_INET)` dotted-quad parsing (libc
code, not part of this repository) — exactly four `'.'`-separated components,
each one to three decimal digits with value at most 255. -/
def parse_ipv4 (s : List Nat) : Option (Nat × Nat × Nat × Nat) :=
  match splitFull 46 s [] with
  | [p0, p1, p2, p3] =>
    if (p0 ≠ [] ∧ p0.length ≤ 3 ∧ allDigits p0 = true ∧ digitsVal p0 ≤ 255) ∧
       (p1 ≠ [] ∧ p1.length ≤ 3 ∧ allDigits p1 = true ∧ digitsVal p1 ≤ 255) ∧
       (p2 ≠ [] ∧ p2.length ≤ 3 ∧ allDigits p2 = true ∧ digitsVal p2 ≤ 255) ∧
       (p3 ≠ [] ∧ p3.length ≤ 3 ∧ allDigits p3 = true ∧ digitsVal p3 ≤ 255) then
      some (digitsVal p0, digitsVal p1, digitsVal p2, digitsVal p3)
    else none
  | _ => none

/-- Embedding of `send_mdns_ptr_query` (socket argument omitted; `none` is the
`-1` sentinel returned without sending): fixed QDCOUNT=1 header, the
label-encoded qname, zero terminator, QTYPE=PTR(12), QCLASS=IN(1). -/
def send_mdns_ptr_query (qname : List Nat) : Option (List Nat) :=
  if qname = [] then none
  else some ([0, 0, 0, 0, 0, 1, 0, 0, 0, 0, 0, 0] ++
    pushNameLoop qname [] ++ [0] ++ [0, 12] ++ [0, 1])

/-- Embedding of `send_mdns_announcement` (socket argument omitted; `none` is
the `-1` sentinel): header with flags 0x8400, ANCOUNT=3, ARCOUNT=1, then the
PTR, SRV, TXT records with their RDLENGTH back-patched via `List.set`, and the
A record in the additional section. -/
def send_mdns_announcement (service_type instance_name hostname ipv4_addr : List Nat)
    (port : Nat) (txt_records : List (List Nat)) : Option (List Nat) :=
  if service_type = [] ∨ instance_name = [] ∨ hostname = [] ∨ ipv4_addr = [] then none
  else
    let full_instance := instance_name ++ 46 :: service_type
    let r0 : List Nat := [0, 0, 132, 0, 0, 0, 0, 3, 0, 0, 0, 1]
    -- PTR record
    let r1 := r0 ++ push_name service_type ++ pushU16 12 ++ pushU16 1 ++ pushU32 4500
    let ptr_rdlen_pos := r1.length
    let r2 := r1 ++ pushU16 0
    let ptr_rdata_start := r2.length
    let r3 := r2 ++ push_name full_instance
    let ptr_rdlen := (r3.length - ptr_rdata_start) % 65536
    let r4 := (r3.set ptr_rdlen_pos ((ptr_rdlen >>> 8) &&& 255)).set (ptr_rdlen_pos + 1)
      (ptr_rdlen &&& 255)
    -- SRV record
    let r5 := r4 ++ push_name full_instance ++ pushU16 33 ++ pushU16 32769 ++ pushU32 120
    let srv_rdlen_pos := r5.length
    let r6 := r5 ++ pushU16 0
    let srv_rdata_start := r6.length
    let r7 := r6 ++ pushU16 0 ++ pushU16 0 ++ pushU16 port ++ push_name hostname
    let srv_rdlen := (r7.length - srv_rdata_start) % 65536
    let r8 := (r7.set srv_rdlen_pos ((srv_rdlen >>> 8) &&& 255)).set (srv_rdlen_pos + 1)
      (srv_rdlen &&& 255)
    -- TXT record
    let r9 := r8 ++ push_name full_instance ++ pushU16 16 ++ pushU16 32769 ++ pushU32 4500
    let txt_rdlen_pos := r9.length
    let r10 := r9 ++ pushU16 0
    let txt_rdata_start := r10.length
    let r11 := r10 ++ (if txt_records = [] then [0]
      else (txt_records.map fun t => (t.length % 256) :: t).flatten)
    let txt_rdlen := (r11.length - txt_rdata_start) % 65536
    let r12 := (r11.set txt_rdlen_pos ((txt_rdlen >>> 8) &&& 255)).set (txt_rdlen_pos + 1)
      (txt_rdlen &&& 255)
    -- A record (additional section)
    let r13 := r12 ++ push_name hostname ++ pushU16 1 ++ pushU16 32769 ++ pushU32 120 ++
      pushU16 4
    match parse_ipv4 ipv4_addr with
    | some (a, b, c, d) => some (r13 ++ [a, b, c, d])
    | none => none

/-- Embedding of `send_mdns_a_record` (socket argument omitted; `none` is the
`-1` sentinel): flags 0x8400, ANCOUNT=1 header and a single A record. -/
def send_mdns_a_record (hostname ipv4_addr : List Nat) : Option (List Nat) :=
  if hostname = [] ∨ ipv4_addr = [] then none
  else
    let r := [0, 0, 132, 0, 0, 0, 0, 1, 0, 0, 0, 0] ++ push_name hostname ++
      pushU16 1 ++ pushU16 32769 ++ pushU32 120 ++ pushU16 4
    match parse_ipv4 ipv4_addr with
    | some (a, b, c, d) => some (r ++ [a, b, c, d])
    | none => none

/-! ### Discovery/responder loop (`mdns_socket_task`) -/

/-- A decoded DNS question (name, qtype, qclass). -/
structure Question where
  name : List Nat
  qtype : Nat
  qclass : Nat
  deriving Repr, DecidableEq

/-- A fully decoded resource record: owner name, type, class, declared
RDLENGTH, and the RDATA bytes. -/
structure RawRR where
  name : List Nat
  rtype : Nat
  rclass : Nat
  rdlen : Nat
  rdata : List Nat
  deriving Repr, DecidableEq

/-- The question filter of the query path: qtype A(1) or ANY(255), qclass
IN(1) or ANY(255), and normalized name equal to the normalized hostname. -/
def questionMatches (hostN : List Nat) (q : Question) : Prop :=
  (q.qtype = 1 ∨ q.qtype = 255) ∧ (q.qclass = 1 ∨ q.qclass = 255) ∧
    normalize_dns_name q.name = hostN

instance (hostN : List Nat) (q : Question) : Decidable (questionMatches hostN q) := by
  unfold questionMatches; infer_instance

/-- Embedding of the question loop of the query path: decode each question,
send one A-record reply (`reply`) on the first match and stop; the returned
list is the sequence of `send_mdns_a_record` calls made. -/
def queryScan (buf hostN : List Nat) (reply : Option (List Nat)) :
    Nat → Nat → List (Option (List Nat))
  | 0, _ => []
  | q + 1, offset =>
    if buf.length ≤ offset then []
    else
      let pn := parse_name buf buf.length offset
      if buf.length < pn.2 + 4 then []
      else
        if questionMatches hostN ⟨pn.1, read_u16 buf pn.2, read_u16 buf (pn.2 + 2)⟩
        then [reply]
        else queryScan buf hostN reply q (pn.2 + 4)

/-- Specification-side decoding of the question section: the same cursor
movement and truncation checks as `queryScan`, collecting every question with
no early stop. -/
def decodeQuestions (buf : List Nat) : Nat → Nat → List Question
  | 0, _ => []
  | q + 1, offset =>
    if buf.length ≤ offset then []
    else
      let pn := parse_name buf buf.length offset
      if buf.length < pn.2 + 4 then []
      else
        ⟨pn.1, read_u16 buf pn.2, read_u16 buf (pn.2 + 2)⟩ ::
          decodeQuestions buf q (pn.2 + 4)

/-- Embedding of the question-skipping loop of the response path. -/
def skipQuestions (buf : List Nat) : Nat → Nat → Nat
  | 0, offset => offset
  | q + 1, offset =>
    let pn := parse_name buf buf.length offset
    if buf.length < pn.2 + 4 then buf.length
    else skipQuestions buf q (pn.2 + 4)

/-- Embedding of the record loop of the response path: iterate the answer,
authority and additional records, accumulating the sticky
`found_matching_qname` flag, and collect (in order) every dotted-quad address
string inserted into the shared discovered-address set. -/
def recordScan (buf qN : List Nat) : Nat → Nat → Bool → List (List Nat)
  | 0, _, _ => []
  | rr + 1, offset, flag =>
    if buf.length ≤ offset then []
    else
      let pn := parse_name buf buf.length offset
      if buf.length < pn.2 + 10 then []
      else
        let ty := read_u16 buf pn.2
        let cl := read_u16 buf (pn.2 + 2)
        let rdlen := read_u16 buf (pn.2 + 8)
        let off2 := pn.2 + 10
        let flag' := flag || decide (normalize_dns_name pn.1 = qN)
        if buf.length < off2 + rdlen then []
        else
          let rest := recordScan buf qN rr (off2 + rdlen) flag'
          if (cl = 1 ∨ cl = 32769) ∧ ty = 1 then
            if rdlen = 4 then
              if flag' then
                dottedQuad (buf.getD off2 0) (buf.getD (off2 + 1) 0)
                  (buf.getD (off2 + 2) 0) (buf.getD (off2 + 3) 0) :: rest
              else rest
            else rest
          else rest

/-- Specification-side decoding of the record list: the same cursor movement
and truncation checks as `recordScan`, collecting every fully decoded record
(a truncated record aborts the rest, as in the source). -/
def decodeRecords (buf : List Nat) : Nat → Nat → List RawRR
  | 0, _ => []
  | rr + 1, offset =>
    if buf.length ≤ offset then []
    else
      let pn := parse_name buf buf.length offset
      if buf.length < pn.2 + 10 then []
      else
        let ty := read_u16 buf pn.2
        let cl := read_u16 buf (pn.2 + 2)
        let rdlen := read_u16 buf (pn.2 + 8)
        let off2 := pn.2 + 10
        if buf.length < off2 + rdlen then []
        else
          ⟨pn.1, ty, cl, rdlen, (List.range rdlen).map fun k => buf.getD (off2 + k) 0⟩ ::
            decodeRecords buf rr (off2 + rdlen)

/-- Modelled from the spec: a record's address is inserted into the
discovered-address set exactly when the record is A-type (type 1) with class
IN (1) or IN|flush (0x8001) and RDLENGTH 4, and a record whose normalized
owner equals the normalized target qname was seen at or before it in the
packet's record list (the `seen` flag is sticky across the whole packet); the
inserted value is the record's 4-byte RDATA as a dotted-quad string. -/
def spec_sticky_inserts (qN : List Nat) : List RawRR → Bool → List (List Nat)
  | [], _ => []
  | r :: rs, seen =>
    let seen' := seen || decide (normalize_dns_name r.name = qN)
    let rest := spec_sticky_inserts qN rs seen'
    if r.rtype = 1 ∧ (r.rclass = 1 ∨ r.rclass = 32769) ∧ r.rdlen = 4 ∧ seen' = true
    then dottedQuadOfBytes r.rdata :: rest
    else rest

/-- Embedding of the per-packet body of `mdns_socket_task` (after `recvfrom`):
given the received datagram `buf`, the discovery qname, and the configured
hostname and IP, returns the list of A-record replies sent (first component;
each entry is one `send_mdns_a_record our_hostname our_ip` call) and the list
of addresses inserted into the shared discovered set (second component). -/
def mdns_process (buf qname our_hostname our_ip : List Nat) :
    List (Option (List Nat)) × List (List Nat) :=
  if buf.length < 12 then ([], [])
  else
    let flags := read_u16 buf 2
    let qdcount := read_u16 buf 4
    let ancount := read_u16 buf 6
    let nscount := read_u16 buf 8
    let arcount := read_u16 buf 10
    if flags &&& 32768 = 0 then
      if 0 < qdcount then
        (queryScan buf (normalize_dns_name our_hostname)
          (send_mdns_a_record our_hostname our_ip) qdcount 12, [])
      else ([], [])
    else
      ([], recordScan buf (normalize_dns_name qname)
        (ancount + nscount + arcount) (skipQuestions buf qdcount 12) false)

/-! ### Group cache (`LightGroupCache`) -/

/-- Embedding of `std::getline(stream, piece, delim)` splitting: every piece
up to each delimiter, with no final piece when the input ends at a delimiter
or is empty (`getline` fails at end-of-stream with nothing read). -/
def getlineSplit (delim : Nat) : List Nat → List Nat → List (List Nat)
  | [], cur => if cur = [] then [] else [cur]
  | c :: rest, cur =>
    if c = delim then cur :: getlineSplit delim rest []
    else getlineSplit delim rest (cur ++ [c])

/-- Comma-joining of a serial list, as written by `serializeGroups`. -/
def joinComma : List (List Nat) → List Nat
  | [] => []
  | [s] => s
  | s :: rest => s ++ 44 :: joinComma rest

/-- Lexicographic byte-string order of `std::map<std::string, ...>` keys. -/
def lexLt : List Nat → List Nat → Bool
  | [], [] => false
  | [], _ :: _ => true
  | _ :: _, [] => false
  | a :: as, b :: bs => if a < b then true else if b < a then false else lexLt as bs

/-- Insert-or-overwrite into the key-sorted association list modelling
`std::map` (`groupMap[name] = serials`). -/
def mapInsert (k : List Nat) (v : List (List Nat)) :
    List (List Nat × List (List Nat)) → List (List Nat × List (List Nat))
  | [] => [(k, v)]
  | (k', v') :: rest =>
    if k = k' then (k, v) :: rest
    else if lexLt k k' then (k, v) :: (k', v') :: rest
    else (k', v') :: mapInsert k v rest

/-- Embedding of `LightGroupCache::serializeGroups`: for each group in map
(key) order, `name|serial1,serial2,...;`. -/
def serializeGroups (m : List (List Nat × List (List Nat))) : List Nat :=
  (m.map fun g => g.1 ++ 124 :: (joinComma g.2 ++ [59])).flatten

/-- One iteration of the `deserializeGroups` entry loop: skip an empty entry
or an entry without `'|'` (`find` returned `npos`), split the part after the
first `'|'` on `','` dropping empty serials, and store the group when both
the name and the serial list are non-empty. -/
def deserializeGroupsStep (m : List (List Nat × List (List Nat))) (entry : List Nat) :
    List (List Nat × List (List Nat)) :=
  if entry = [] then m
  else
    let pre := entry.takeWhile fun c => c ≠ 124
    if pre.length = entry.length then m
    else
      let groupName := pre
      let serialsStr := entry.drop (pre.length + 1)
      let serials := (getlineSplit 44 serialsStr []).filter fun s => s ≠ []
      if groupName ≠ [] ∧ serials ≠ [] then mapInsert groupName serials m else m

/-- Embedding of `LightGroupCache::deserializeGroups`: clear the map, split
the data on `';'`, and process each entry. -/
def deserializeGroups (data : List Nat) : List (List Nat × List (List Nat)) :=
  (getlineSplit 59 data []).foldl deserializeGroupsStep []


/-! ### Derivation predicates for the decoder cursor claim -/

/-- A plain (pointer-free) wire-format name at index `i` ending just past its
zero terminator at index `e`: a run of ordinary labels followed by a zero
length byte, all within the message bounds. -/
inductive PlainName (msg : List Nat) (msgLen : Nat) : Nat → Nat → Prop
  | zero (i : Nat) : i < msgLen → msg.getD i 0 = 0 →
      PlainName msg msgLen i (i + 1)
  | label (i e : Nat) : i < msgLen → msg.getD i 0 &&& 192 ≠ 192 →
      msg.getD i 0 ≠ 0 → ¬ msgLen < i + 1 + msg.getD i 0 →
      PlainName msg msgLen (i + 1 + msg.getD i 0) e →
      PlainName msg msgLen i e

/-- A wire-format name at index `i` whose first compression pointer sits at
index `p` (after a run of ordinary labels), with both pointer bytes present
and a target strictly inside the message, so the decoder takes the jump. -/
inductive FirstPtr (msg : List Nat) (msgLen : Nat) : Nat → Nat → Prop
  | ptr (i : Nat) : i < msgLen → msg.getD i 0 &&& 192 = 192 → i + 1 < msgLen →
      ((msg.getD i 0 &&& 63) <<< 8) ||| msg.getD (i + 1) 0 < msgLen →
      FirstPtr msg msgLen i i
  | label (i p : Nat) : i < msgLen → msg.getD i 0 &&& 192 ≠ 192 →
      msg.getD i 0 ≠ 0 → ¬ msgLen < i + 1 + msg.getD i 0 →
      FirstPtr msg msgLen (i + 1 + msg.getD i 0) p →
      FirstPtr msg msgLen i p

/-- The decoder's name accumulator: fold labels onto `nm`, inserting a `'.'`
before each label except into an empty accumulator. -/
def nameAppend (nm : List Nat) (ls : List (List Nat)) : List Nat :=
  ls.foldl (fun n l => if n = [] then l else n ++ 46 :: l) nm

/-- Each label prefixed by a `'.'`, concatenated. -/
def dotJoinAll (ls : List (List Nat)) : List Nat := (ls.map fun l => 46 :: l).flatten

/-- Modelled from the spec: the declarative record layout of the service
announcement — header (ID 0, flags 0x8400, QDCOUNT 0, ANCOUNT 3, NSCOUNT 0,
ARCOUNT 1), then a PTR record (owner `service_type`, TTL 4500, class IN,
RDATA the encoded full instance name), an SRV record (owner the full instance
name, TTL 120, class IN|flush, RDATA priority 0 / weight 0 / port / encoded
hostname), a TXT record (owner the full instance name, TTL 4500, class
IN|flush, RDATA the length-prefixed strings or one zero byte), and an A
record (owner `hostname`, TTL 120, class IN|flush, RDATA the 4 IPv4 bytes),
each variable-length RDLENGTH equal to the actual RDATA length. -/
def spec_announcement_layout (st inst host : List Nat) (a b c d : Nat)
    (port : Nat) (txts : List (List Nat)) : List Nat :=
  let fi := inst ++ 46 :: st
  let ptrRd := push_name fi
  let srvRd := pushU16 0 ++ pushU16 0 ++ pushU16 port ++ push_name host
  let txtRd := if txts = [] then [0] else (txts.map fun t => (t.length % 256) :: t).flatten
  [0, 0, 132, 0, 0, 0, 0, 3, 0, 0, 0, 1] ++
  (push_name st ++ pushU16 12 ++ pushU16 1 ++ pushU32 4500 ++
    pushU16 (ptrRd.length % 65536) ++ ptrRd) ++
  (push_name fi ++ pushU16 33 ++ pushU16 32769 ++ pushU32 120 ++
    pushU16 (srvRd.length % 65536) ++ srvRd) ++
  (push_name fi ++ pushU16 16 ++ pushU16 32769 ++ pushU32 4500 ++
    pushU16 (txtRd.length % 65536) ++ txtRd) ++
  (push_name host ++ pushU16 1 ++ pushU16 32769 ++ pushU32 120 ++
    pushU16 4 ++ [a, b, c, d])

/-! ### Concrete strings and synthetic packets used as witness inputs -/

/-- The discovery name `"_elg._tcp.local"`. -/
def qnameElg : List Nat :=
  [95, 101, 108, 103, 46, 95, 116, 99, 112, 46, 108, 111, 99, 97, 108]

/-- The instance name `"myinst._elg._tcp.local"`. -/
def instElg : List Nat :=
  [109, 121, 105, 110, 115, 116, 46, 95, 101, 108, 103, 46, 95, 116, 99, 112,
   46, 108, 111, 99, 97, 108]

/-- The SRV target hostname `"elgato.local"`. -/
def hostElgato : List Nat := [101, 108, 103, 97, 116, 111, 46, 108, 111, 99, 97, 108]

/-- An unrelated hostname `"other.local"`. -/
def hostOther : List Nat := [111, 116, 104, 101, 114, 46, 108, 111, 99, 97, 108]

/-- The device's own hostname `"me.local"`. -/
def hostMe : List Nat := [109, 101, 46, 108, 111, 99, 97, 108]

/-- The device's own address string `"1.2.3.4"`. -/
def ipMe : List Nat := [49, 46, 50, 46, 51, 46, 52]

/-- Wire bytes of the PTR record `_elg._tcp.local -> myinst._elg._tcp.local`. -/
def rrPTR : List Nat :=
  push_name qnameElg ++ pushU16 12 ++ pushU16 1 ++ pushU32 4500 ++
    pushU16 (push_name instElg).length ++ push_name instElg

/-- Wire bytes of the SRV record `myinst._elg._tcp.local -> elgato.local:9123`. -/
def rrSRV : List Nat :=
  push_name instElg ++ pushU16 33 ++ pushU16 32769 ++ pushU32 120 ++
    pushU16 (pushU16 0 ++ pushU16 0 ++ pushU16 9123 ++ push_name hostElgato).length ++
    (pushU16 0 ++ pushU16 0 ++ pushU16 9123 ++ push_name hostElgato)

/-- Wire bytes of the A record `elgato.local -> 192.168.1.42`. -/
def rrTargetA : List Nat :=
  push_name hostElgato ++ pushU16 1 ++ pushU16 32769 ++ pushU32 120 ++
    pushU16 4 ++ [192, 168, 1, 42]

/-- Wire bytes of the A record `other.local -> 10.9.9.9` (class IN). -/
def rrOtherA : List Nat :=
  push_name hostOther ++ pushU16 1 ++ pushU16 1 ++ pushU32 120 ++
    pushU16 4 ++ [10, 9, 9, 9]

/-- Response header (flags 0x8400) with four answer records. -/
def respHeader4 : List Nat := [0, 0, 132, 0, 0, 0, 0, 4, 0, 0, 0, 0]

/-- Synthetic response: PTR for the discovery name, then the target A record. -/
def pktC1w : List Nat := [0, 0, 132, 0, 0, 0, 0, 2, 0, 0, 0, 0] ++ rrPTR ++ rrTargetA

/-- Synthetic response whose record order is target A, PTR, SRV, unrelated A:
the target A record precedes every record owned by the discovery name while
the unrelated A record follows the PTR. -/
def pktC2cx : List Nat := respHeader4 ++ rrTargetA ++ rrPTR ++ rrSRV ++ rrOtherA

/-- Synthetic response whose record order is unrelated A, PTR, SRV, target A. -/
def pktC2good : List Nat := respHeader4 ++ rrOtherA ++ rrPTR ++ rrSRV ++ rrTargetA

/-- Synthetic response containing no record owned by the discovery name. -/
def pktC2nomatch : List Nat :=
  [0, 0, 132, 0, 0, 0, 0, 2, 0, 0, 0, 0] ++ rrOtherA ++ rrTargetA

/-- Synthetic query with two questions: a PTR question for `other.local`,
then an A/IN question for the configured hostname `me.local`. -/
def pktC8w : List Nat :=
  [0, 0, 0, 0, 0, 2, 0, 0, 0, 0, 0, 0] ++
    (push_name hostOther ++ pushU16 12 ++ pushU16 1) ++
    (push_name hostMe ++ pushU16 1 ++ pushU16 1)

/-- The example group map: kitchen -> SN1, SN2; office -> SN3. -/
def kitchenOfficeMap : List (List Nat × List (List Nat)) :=
  [([107, 105, 116, 99, 104, 101, 110], [[83, 78, 49], [83, 78, 50]]),
   ([111, 102, 102, 105, 99, 101], [[83, 78, 51]])]

/-! ## Lemmas about the name decoder loop -/

theorem measure_ptr_lt (msgLen jumps i ptr : Nat) (hj : jumps < msgLen) :
    (msgLen - (jumps + 1)) * (msgLen + 1) + (msgLen - ptr) <
      (msgLen - jumps) * (msgLen + 1) + (msgLen - i) := by
  have h1 : msgLen - jumps = (msgLen - (jumps + 1)) + 1 := by omega
  rw [h1, Nat.add_mul, Nat.one_mul]
  generalize (msgLen - (jumps + 1)) * (msgLen + 1) = K
  omega

theorem measure_label_lt (msgLen jumps i len : Nat) (hi : i < msgLen) (hlen : 0 < len) :
    (msgLen - jumps) * (msgLen + 1) + (msgLen - (i + 1 + len)) <
      (msgLen - jumps) * (msgLen + 1) + (msgLen - i) := by
  generalize (msgLen - jumps) * (msgLen + 1) = K
  omega

theorem pna_sufficient (msg : List Nat) (msgLen : Nat) :
    ∀ fuel i jumps jumped off nm,
      (msgLen - jumps) * (msgLen + 1) + (msgLen - i) < fuel →
      ∃ r, parseNameAux msg msgLen fuel i jumps jumped off nm = some r := by
  intro fuel
  induction fuel with
  | zero => intro i jumps jumped off nm h; omega
  | succ f ih =>
    intro i jumps jumped off nm h
    simp only [parseNameAux]
    by_cases hI : i < msgLen
    · simp only [if_pos hI]
      by_cases hJ : jumps < msgLen
      · simp only [if_pos hJ]
        by_cases hP : msg.getD i 0 &&& 192 = 192
        · simp only [if_pos hP]
          by_cases hP1 : msgLen ≤ i + 1
          · simp only [if_pos hP1]; exact ⟨_, rfl⟩
          · simp only [if_neg hP1]
            by_cases hP2 : msgLen ≤ ((msg.getD i 0 &&& 63) <<< 8) ||| msg.getD (i + 1) 0
            · simp only [if_pos hP2]; exact ⟨_, rfl⟩
            · simp only [if_neg hP2]
              exact ih _ _ _ _ _ (by
                have := measure_ptr_lt msgLen jumps i
                  (((msg.getD i 0 &&& 63) <<< 8) ||| msg.getD (i + 1) 0) hJ
                omega)
        · simp only [if_neg hP]
          by_cases hZ : msg.getD i 0 = 0
          · simp only [if_pos hZ]; exact ⟨_, rfl⟩
          · simp only [if_neg hZ]
            by_cases hT : msgLen < i + 1 + msg.getD i 0
            · simp only [if_pos hT]; exact ⟨_, rfl⟩
            · simp only [if_neg hT]
              exact ih _ _ _ _ _ (by
                have := measure_label_lt msgLen jumps i (msg.getD i 0) hI
                  (Nat.pos_of_ne_zero hZ)
                omega)
      · simp only [if_neg hJ]; exact ⟨_, rfl⟩
    · simp only [if_neg hI]; exact ⟨_, rfl⟩

theorem pna_stable (msg : List Nat) (msgLen : Nat) :
    ∀ fuel₁ fuel₂ i jumps jumped off nm,
      (msgLen - jumps) * (msgLen + 1) + (msgLen - i) < fuel₁ →
      (msgLen - jumps) * (msgLen + 1) + (msgLen - i) < fuel₂ →
      parseNameAux msg msgLen fuel₁ i jumps jumped off nm =
        parseNameAux msg msgLen fuel₂ i jumps jumped off nm := by
  intro fuel₁
  induction fuel₁ with
  | zero => intro fuel₂ i jumps jumped off nm h1 h2; omega
  | succ f ih =>
    intro fuel₂ i jumps jumped off nm h1 h2
    obtain ⟨f₂, rfl⟩ : ∃ f₂, fuel₂ = f₂ + 1 := ⟨fuel₂ - 1, by omega⟩
    simp only [parseNameAux]
    by_cases hI : i < msgLen
    · simp only [if_pos hI]
      by_cases hJ : jumps < msgLen
      · simp only [if_pos hJ]
        by_cases hP : msg.getD i 0 &&& 192 = 192
        · simp only [if_pos hP]
          by_cases hP1 : msgLen ≤ i + 1
          · simp only [if_pos hP1]
          · simp only [if_neg hP1]
            by_cases hP2 : msgLen ≤ ((msg.getD i 0 &&& 63) <<< 8) ||| msg.getD (i + 1) 0
            · simp only [if_pos hP2]
            · simp only [if_neg hP2]
              have hm := measure_ptr_lt msgLen jumps i
                (((msg.getD i 0 &&& 63) <<< 8) ||| msg.getD (i + 1) 0) hJ
              exact ih _ _ _ _ _ _ (by omega) (by omega)
        · simp only [if_neg hP]
          by_cases hZ : msg.getD i 0 = 0
          · simp only [if_pos hZ]
          · simp only [if_neg hZ]
            by_cases hT : msgLen < i + 1 + msg.getD i 0
            · simp only [if_pos hT]
            · simp only [if_neg hT]
              have hm := measure_label_lt msgLen jumps i (msg.getD i 0) hI
                (Nat.pos_of_ne_zero hZ)
              exact ih _ _ _ _ _ _ (by omega) (by omega)
      · simp only [if_neg hJ]
    · simp only [if_neg hI]

theorem pna_frozen (msg : List Nat) (msgLen : Nat) :
    ∀ fuel i jumps off nm r,
      parseNameAux msg msgLen fuel i jumps true off nm = some r → r.1.2 = off := by
  intro fuel
  induction fuel with
  | zero => intro i jumps off nm r h; simp [parseNameAux] at h
  | succ f ih =>
    intro i jumps off nm r h
    simp only [parseNameAux] at h
    by_cases hI : i < msgLen
    · simp only [if_pos hI] at h
      by_cases hJ : jumps < msgLen
      · simp only [if_pos hJ] at h
        by_cases hP : msg.getD i 0 &&& 192 = 192
        · simp only [if_pos hP] at h
          by_cases hP1 : msgLen ≤ i + 1
          · simp only [if_pos hP1] at h
            cases h; rfl
          · simp only [if_neg hP1] at h
            by_cases hP2 : msgLen ≤ ((msg.getD i 0 &&& 63) <<< 8) ||| msg.getD (i + 1) 0
            · simp only [if_pos hP2] at h; cases h; rfl
            · simp only [if_neg hP2, if_pos rfl] at h
              exact ih _ _ _ _ _ h
        · simp only [if_neg hP] at h
          by_cases hZ : msg.getD i 0 = 0
          · simp only [if_pos hZ, if_pos rfl] at h; cases h; rfl
          · simp only [if_neg hZ] at h
            by_cases hT : msgLen < i + 1 + msg.getD i 0
            · simp only [if_pos hT] at h; cases h; rfl
            · simp only [if_neg hT, if_pos rfl] at h
              exact ih _ _ _ _ _ h
      · simp only [if_neg hJ] at h; cases h; rfl
    · simp only [if_neg hI] at h; cases h; rfl

theorem pna_jumps_le (msg : List Nat) (msgLen : Nat) :
    ∀ fuel i jumps jumped off nm r, jumps ≤ msgLen →
      parseNameAux msg msgLen fuel i jumps jumped off nm = some r → r.2 ≤ msgLen := by
  intro fuel
  induction fuel with
  | zero => intro i jumps jumped off nm r _ h; simp [parseNameAux] at h
  | succ f ih =>
    intro i jumps jumped off nm r hj h
    simp only [parseNameAux] at h
    by_cases hI : i < msgLen
    · simp only [if_pos hI] at h
      by_cases hJ : jumps < msgLen
      · simp only [if_pos hJ] at h
        by_cases hP : msg.getD i 0 &&& 192 = 192
        · simp only [if_pos hP] at h
          by_cases hP1 : msgLen ≤ i + 1
          · simp only [if_pos hP1] at h; cases h; exact hj
          · simp only [if_neg hP1] at h
            by_cases hP2 : msgLen ≤ ((msg.getD i 0 &&& 63) <<< 8) ||| msg.getD (i + 1) 0
            · simp only [if_pos hP2] at h; cases h; exact hj
            · simp only [if_neg hP2] at h
              exact ih _ _ _ _ _ _ (by omega) h
        · simp only [if_neg hP] at h
          by_cases hZ : msg.getD i 0 = 0
          · simp only [if_pos hZ] at h; cases h; exact hj
          · simp only [if_neg hZ] at h
            by_cases hT : msgLen < i + 1 + msg.getD i 0
            · simp only [if_pos hT] at h; cases h; exact hj
            · simp only [if_neg hT] at h
              exact ih _ _ _ _ _ _ hj h
      · simp only [if_neg hJ] at h; cases h; exact hj
    · simp only [if_neg hI] at h; cases h; exact hj

theorem pna_off_bounds (msg : List Nat) (msgLen : Nat) :
    ∀ fuel i jumps nm r, i ≤ msgLen →
      parseNameAux msg msgLen fuel i jumps false i nm = some r →
      i ≤ r.1.2 ∧ r.1.2 ≤ msgLen := by
  intro fuel
  induction fuel with
  | zero => intro i jumps nm r _ h; simp [parseNameAux] at h
  | succ f ih =>
    intro i jumps nm r hi h
    simp only [parseNameAux] at h
    by_cases hI : i < msgLen
    · simp only [if_pos hI] at h
      by_cases hJ : jumps < msgLen
      · simp only [if_pos hJ] at h
        by_cases hP : msg.getD i 0 &&& 192 = 192
        · simp only [if_pos hP] at h
          by_cases hP1 : msgLen ≤ i + 1
          · simp only [if_pos hP1] at h; cases h; exact ⟨Nat.le_refl i, hi⟩
          · simp only [if_neg hP1] at h
            by_cases hP2 : msgLen ≤ ((msg.getD i 0 &&& 63) <<< 8) ||| msg.getD (i + 1) 0
            · simp only [if_pos hP2] at h; cases h; exact ⟨Nat.le_refl i, hi⟩
            · simp only [if_neg hP2] at h
              have h2 : parseNameAux msg msgLen f
                  (((msg.getD i 0 &&& 63) <<< 8) ||| msg.getD (i + 1) 0)
                  (jumps + 1) true (i + 2) nm = some r := h
              have := pna_frozen msg msgLen f _ _ _ _ _ h2
              omega
        · simp only [if_neg hP] at h
          by_cases hZ : msg.getD i 0 = 0
          · simp only [if_pos hZ] at h
            cases h
            exact ⟨by simp, by simp; omega⟩
          · simp only [if_neg hZ] at h
            by_cases hT : msgLen < i + 1 + msg.getD i 0
            · simp only [if_pos hT] at h; cases h; exact ⟨Nat.le_refl i, hi⟩
            · simp only [if_neg hT] at h
              have h2 : parseNameAux msg msgLen f (i + 1 + msg.getD i 0) jumps false
                  (i + 1 + msg.getD i 0) _ = some r := h
              have := ih _ _ _ _ (by omega) h2
              omega
      · simp only [if_neg hJ] at h; cases h; exact ⟨Nat.le_refl i, hi⟩
    · simp only [if_neg hI] at h; cases h; exact ⟨Nat.le_refl i, hi⟩

theorem pna_agree (msg msg2 : List Nat) (msgLen : Nat)
    (hag : ∀ k, k < msgLen → msg.getD k 0 = msg2.getD k 0) :
    ∀ fuel i jumps jumped off nm,
      parseNameAux msg msgLen fuel i jumps jumped off nm =
        parseNameAux msg2 msgLen fuel i jumps jumped off nm := by
  intro fuel
  induction fuel with
  | zero => intro i jumps jumped off nm; rfl
  | succ f ih =>
    intro i jumps jumped off nm
    simp only [parseNameAux]
    by_cases hI : i < msgLen
    · have hgi : msg2.getD i 0 = msg.getD i 0 := (hag i hI).symm
      rw [hgi]
      simp only [if_pos hI]
      by_cases hJ : jumps < msgLen
      · simp only [if_pos hJ]
        by_cases hP : msg.getD i 0 &&& 192 = 192
        · simp only [if_pos hP]
          by_cases hP1 : msgLen ≤ i + 1
          · simp only [if_pos hP1]
          · have hgi1 : msg2.getD (i + 1) 0 = msg.getD (i + 1) 0 :=
              (hag (i + 1) (by omega)).symm
            rw [hgi1]
            simp only [if_neg hP1]
            by_cases hP2 : msgLen ≤ ((msg.getD i 0 &&& 63) <<< 8) ||| msg.getD (i + 1) 0
            · simp only [if_pos hP2]
            · simp only [if_neg hP2]
              exact ih _ _ _ _ _
        · simp only [if_neg hP]
          by_cases hZ : msg.getD i 0 = 0
          · simp only [if_pos hZ]
          · simp only [if_neg hZ]
            by_cases hT : msgLen < i + 1 + msg.getD i 0
            · simp only [if_pos hT]
            · simp only [if_neg hT]
              have hmap : ((List.range (msg.getD i 0)).map fun k => msg2.getD (i + 1 + k) 0) =
                  (List.range (msg.getD i 0)).map fun k => msg.getD (i + 1 + k) 0 := by
                refine List.map_congr_left fun k hk => ?_
                have hk' : k < msg.getD i 0 := List.mem_range.mp hk
                exact (hag (i + 1 + k) (by omega)).symm
              rw [hmap]
              exact ih _ _ _ _ _
      · simp only [if_neg hJ]
    · simp only [if_neg hI]

theorem measure_init_lt (msgLen offset : Nat) :
    (msgLen - 0) * (msgLen + 1) + (msgLen - offset) < parseFuel msgLen := by
  unfold parseFuel
  rw [Nat.sub_zero]
  have h : (msgLen + 1) * (msgLen + 1) = msgLen * (msgLen + 1) + (msgLen + 1) := by ring
  rw [h]
  generalize msgLen * (msgLen + 1) = K
  omega

theorem parse_name_eq_aux (msg : List Nat) (msgLen offset : Nat) (h : offset < msgLen)
    (r : (List Nat × Nat) × Nat)
    (hr : parseNameAux msg msgLen (parseFuel msgLen) offset 0 false offset [] = some r) :
    parse_name msg msgLen offset = r.1 := by
  unfold parse_name
  rw [if_neg (by omega), hr]
  rfl

/-- C4: `parse_name` terminates on every input, including malformed and cyclic
compression pointers: the loop finishes within the `parseFuel` iteration
budget (quadratic in the message length) no matter how much extra budget is
offered, the final value of the `jumps` counter (pointer jumps taken, capped
by the `jumps < msg_len` guard) never exceeds the message length, and in every
case — out-of-bounds pointers and capped cyclic chains included — the loop
returns `some` result, the name assembled so far, rather than failing. -/
theorem C4_decode_name_terminates (msg : List Nat) (msgLen offset extra : Nat) :
    ∃ jumps, jumps ≤ msgLen ∧
      parseNameAux msg msgLen (parseFuel msgLen + extra) offset 0 false offset [] =
        some (parse_name msg msgLen offset, jumps) := by
  by_cases h : offset < msgLen
  · obtain ⟨r, hr⟩ := pna_sufficient msg msgLen (parseFuel msgLen) offset 0 false offset []
      (measure_init_lt msgLen offset)
    have hst := pna_stable msg msgLen (parseFuel msgLen) (parseFuel msgLen + extra)
      offset 0 false offset [] (measure_init_lt msgLen offset)
      (lt_of_lt_of_le (measure_init_lt msgLen offset) (Nat.le_add_right _ _))
    have hj := pna_jumps_le msg msgLen (parseFuel msgLen) offset 0 false offset [] r
      (Nat.zero_le msgLen) hr
    have hp := parse_name_eq_aux msg msgLen offset h r hr
    refine ⟨r.2, hj, ?_⟩
    rw [← hst, hr, hp]
  · have hp : parse_name msg msgLen offset = ([], offset) := by
      unfold parse_name
      rw [if_pos (by omega)]
    refine ⟨0, Nat.zero_le _, ?_⟩
    obtain ⟨f, hf⟩ : ∃ f, parseFuel msgLen + extra = f + 1 :=
      ⟨parseFuel msgLen + extra - 1, by unfold parseFuel; omega⟩
    rw [hf, hp]
    simp only [parseNameAux]
    rw [if_neg h]

/-- C10: decoder safety — `parse_name` reads only bytes at indices strictly
below `msg_len` (its result is unchanged by any modification of the buffer at
or beyond `msg_len`), and for every starting offset at most `msg_len` the
returned by-reference offset never decreases and never exceeds `msg_len`, so
the record iteration of `mdns_socket_task` resuming at the returned offset
never resumes beyond the end of the received datagram because of name
parsing. -/
theorem C10_parse_name_safety (msg msg2 : List Nat) (msgLen offset : Nat)
    (hoff : offset ≤ msgLen)
    (hag : ∀ k, k < msgLen → msg.getD k 0 = msg2.getD k 0) :
    parse_name msg msgLen offset = parse_name msg2 msgLen offset ∧
      offset ≤ (parse_name msg msgLen offset).2 ∧
      (parse_name msg msgLen offset).2 ≤ msgLen := by
  by_cases h : offset < msgLen
  · obtain ⟨r, hr⟩ := pna_sufficient msg msgLen (parseFuel msgLen) offset 0 false offset []
      (measure_init_lt msgLen offset)
    have hb := pna_off_bounds msg msgLen (parseFuel msgLen) offset 0 [] r hoff hr
    have hagree := pna_agree msg msg2 msgLen hag (parseFuel msgLen) offset 0 false offset []
    have hp := parse_name_eq_aux msg msgLen offset h r hr
    have hp2 : parse_name msg2 msgLen offset = r.1 :=
      parse_name_eq_aux msg2 msgLen offset h r (by rw [← hagree, hr])
    exact ⟨by rw [hp, hp2], by rw [hp]; exact hb.1, by rw [hp]; exact hb.2⟩
  · have hp : parse_name msg msgLen offset = ([], offset) := by
      unfold parse_name
      rw [if_pos (by omega)]
    have hp2 : parse_name msg2 msgLen offset = ([], offset) := by
      unfold parse_name
      rw [if_pos (by omega)]
    rw [hp, hp2]
    exact ⟨rfl, Nat.le_refl _, hoff⟩

theorem C10_witness :
    parse_name [1, 97, 0] 3 0 = parse_name [1, 97, 0, 99] 3 0 ∧
      0 ≤ (parse_name [1, 97, 0] 3 0).2 ∧ (parse_name [1, 97, 0] 3 0).2 ≤ 3 :=
  C10_parse_name_safety [1, 97, 0] [1, 97, 0, 99] 3 0 (by omega) (by decide)

theorem pna_plain (msg : List Nat) (msgLen : Nat) :
    ∀ i e, PlainName msg msgLen i e →
      ∀ fuel off nm, (msgLen - 0) * (msgLen + 1) + (msgLen - i) < fuel →
        ∃ nm', parseNameAux msg msgLen fuel i 0 false off nm = some ((nm', e), 0) := by
  intro i e hpn
  induction hpn with
  | zero i hi hz =>
    intro fuel off nm hf
    obtain ⟨f, rfl⟩ : ∃ f, fuel = f + 1 := ⟨fuel - 1, by omega⟩
    refine ⟨nm, ?_⟩
    simp only [parseNameAux]
    rw [if_pos hi, if_pos (show 0 < msgLen by omega),
      if_neg (show ¬ msg.getD i 0 &&& 192 = 192 by rw [hz]; decide), if_pos hz]
    rfl
  | label i e hi hnp hnz hbound _ ih =>
    intro fuel off nm hf
    obtain ⟨f, rfl⟩ : ∃ f, fuel = f + 1 := ⟨fuel - 1, by omega⟩
    have hm := measure_label_lt msgLen 0 i (msg.getD i 0) hi (Nat.pos_of_ne_zero hnz)
    obtain ⟨nm', hrec⟩ := ih f (i + 1 + msg.getD i 0)
      (if nm = [] then (List.range (msg.getD i 0)).map fun k => msg.getD (i + 1 + k) 0
       else nm ++ 46 :: ((List.range (msg.getD i 0)).map fun k => msg.getD (i + 1 + k) 0))
      (by omega)
    refine ⟨nm', ?_⟩
    simp only [parseNameAux]
    rw [if_pos hi, if_pos (show 0 < msgLen by omega), if_neg hnp, if_neg hnz, if_neg hbound]
    exact hrec

theorem pna_firstptr (msg : List Nat) (msgLen : Nat) :
    ∀ i p, FirstPtr msg msgLen i p →
      ∀ fuel off nm, (msgLen - 0) * (msgLen + 1) + (msgLen - i) < fuel →
        ∃ nm' j, parseNameAux msg msgLen fuel i 0 false off nm = some ((nm', p + 2), j) := by
  intro i p hfp
  induction hfp with
  | ptr i hi hp hp1 hp2 =>
    intro fuel off nm hf
    obtain ⟨f, rfl⟩ : ∃ f, fuel = f + 1 := ⟨fuel - 1, by omega⟩
    have hm := measure_ptr_lt msgLen 0 i
      (((msg.getD i 0 &&& 63) <<< 8) ||| msg.getD (i + 1) 0) (by omega)
    simp only [Nat.zero_add] at hm
    obtain ⟨⟨⟨rn, ro⟩, rj⟩, hr⟩ := pna_sufficient msg msgLen f
      (((msg.getD i 0 &&& 63) <<< 8) ||| msg.getD (i + 1) 0) 1 true (i + 2) nm (by omega)
    have hfr := pna_frozen msg msgLen f _ _ _ _ _ hr
    have hro : ro = i + 2 := hfr
    rw [hro] at hr
    refine ⟨rn, rj, ?_⟩
    simp only [parseNameAux]
    rw [if_pos hi, if_pos (show 0 < msgLen by omega), if_pos hp,
      if_neg (show ¬ msgLen ≤ i + 1 by omega), if_neg (show ¬ msgLen ≤ _ by omega)]
    exact hr
  | label i p hi hnp hnz hbound _ ih =>
    intro fuel off nm hf
    obtain ⟨f, rfl⟩ : ∃ f, fuel = f + 1 := ⟨fuel - 1, by omega⟩
    have hm := measure_label_lt msgLen 0 i (msg.getD i 0) hi (Nat.pos_of_ne_zero hnz)
    obtain ⟨nm', j, hrec⟩ := ih f (i + 1 + msg.getD i 0)
      (if nm = [] then (List.range (msg.getD i 0)).map fun k => msg.getD (i + 1 + k) 0
       else nm ++ 46 :: ((List.range (msg.getD i 0)).map fun k => msg.getD (i + 1 + k) 0))
      (by omega)
    refine ⟨nm', j, ?_⟩
    simp only [parseNameAux]
    rw [if_pos hi, if_pos (show 0 < msgLen by omega), if_neg hnp, if_neg hnz, if_neg hbound]
    exact hrec

/-- C3: decoder cursor postcondition — if the name at the starting offset is a
plain label run ending with its zero terminator at `e - 1` (no compression
pointer), the external offset is advanced to `e`, just past the terminating
zero byte; if the name reaches a (valid, in-bounds) first pointer at index
`p`, the external offset is advanced to exactly `p + 2`, once, and never moved
again no matter how many further pointers internal parsing follows. -/
theorem C3_decode_name_cursor (msg : List Nat) (msgLen offset e p : Nat) :
    (PlainName msg msgLen offset e → (parse_name msg msgLen offset).2 = e) ∧
    (FirstPtr msg msgLen offset p → (parse_name msg msgLen offset).2 = p + 2) := by
  constructor
  · intro h
    have hlt : offset < msgLen := by
      cases h <;> assumption
    obtain ⟨nm', hr⟩ := pna_plain msg msgLen offset e h (parseFuel msgLen) offset []
      (measure_init_lt msgLen offset)
    rw [parse_name_eq_aux msg msgLen offset hlt _ hr]
  · intro h
    have hlt : offset < msgLen := by
      cases h <;> assumption
    obtain ⟨nm', j, hr⟩ := pna_firstptr msg msgLen offset p h (parseFuel msgLen) offset []
      (measure_init_lt msgLen offset)
    rw [parse_name_eq_aux msg msgLen offset hlt _ hr]

theorem C3_witness :
    (parse_name [1, 97, 0, 192, 0] 5 0).2 = 3 ∧ (parse_name [1, 97, 0, 192, 0] 5 3).2 = 5 :=
  ⟨(C3_decode_name_cursor [1, 97, 0, 192, 0] 5 0 3 0).1
      (PlainName.label 0 3 (by decide) (by decide) (by decide) (by decide)
        (PlainName.zero 2 (by decide) (by decide))),
   (C3_decode_name_cursor [1, 97, 0, 192, 0] 5 3 0 3).2
      (FirstPtr.ptr 3 (by decide) (by decide) (by decide) (by decide))⟩

/-! ## Lemmas about the discovery/responder loop -/

theorem recordScan_eq_spec (buf qN : List Nat) :
    ∀ cnt offset flag,
      recordScan buf qN cnt offset flag =
        spec_sticky_inserts qN (decodeRecords buf cnt offset) flag := by
  intro cnt
  induction cnt with
  | zero => intro offset flag; rfl
  | succ rr ih =>
    intro offset flag
    simp only [recordScan, decodeRecords]
    by_cases h1 : buf.length ≤ offset
    · simp only [if_pos h1]; rfl
    · simp only [if_neg h1]
      by_cases h2 : buf.length < (parse_name buf buf.length offset).2 + 10
      · simp only [if_pos h2]; rfl
      · simp only [if_neg h2]
        by_cases h3 : buf.length < (parse_name buf buf.length offset).2 + 10 +
          read_u16 buf ((parse_name buf buf.length offset).2 + 8)
        · simp only [if_pos h3]; rfl
        · simp only [if_neg h3, spec_sticky_inserts, ih]
          by_cases hcl : read_u16 buf ((parse_name buf buf.length offset).2 + 2) = 1 ∨
            read_u16 buf ((parse_name buf buf.length offset).2 + 2) = 32769
          · by_cases hty : read_u16 buf (parse_name buf buf.length offset).2 = 1
            · by_cases hlen : read_u16 buf ((parse_name buf buf.length offset).2 + 8) = 4
              · by_cases hfl : (flag || decide (normalize_dns_name
                    (parse_name buf buf.length offset).1 = qN)) = true
                · rw [if_pos ⟨hcl, hty⟩, if_pos hlen, if_pos hfl,
                    if_pos ⟨hty, hcl, hlen, hfl⟩]
                  congr 1
                  rw [hlen]
                  have hrange : (List.range 4).map
                      (fun k => buf.getD ((parse_name buf buf.length offset).2 + 10 + k) 0) =
                      [buf.getD ((parse_name buf buf.length offset).2 + 10 + 0) 0,
                       buf.getD ((parse_name buf buf.length offset).2 + 10 + 1) 0,
                       buf.getD ((parse_name buf buf.length offset).2 + 10 + 2) 0,
                       buf.getD ((parse_name buf buf.length offset).2 + 10 + 3) 0] := rfl
                  rw [hrange]
                  simp [dottedQuadOfBytes, List.getD]
                · rw [if_pos ⟨hcl, hty⟩, if_pos hlen, if_neg hfl,
                    if_neg (by intro hcc; exact hfl hcc.2.2.2)]
              · rw [if_pos ⟨hcl, hty⟩, if_neg hlen,
                  if_neg (by intro hcc; exact hlen hcc.2.2.1)]
            · rw [if_neg (by intro hcc; exact hty hcc.2),
                if_neg (by intro hcc; exact hty hcc.1)]
          · rw [if_neg (by intro hcc; exact hcl hcc.1),
              if_neg (by intro hcc; exact hcl hcc.2.1)]

theorem mdns_process_response_eq (buf qname host ip : List Nat) (h12 : 12 ≤ buf.length)
    (hr : read_u16 buf 2 &&& 32768 ≠ 0) :
    (mdns_process buf qname host ip).2 =
      spec_sticky_inserts (normalize_dns_name qname)
        (decodeRecords buf (read_u16 buf 6 + read_u16 buf 8 + read_u16 buf 10)
          (skipQuestions buf (read_u16 buf 4) 12)) false := by
  simp only [mdns_process]
  rw [if_neg (by omega), if_neg hr]
  exact recordScan_eq_spec buf (normalize_dns_name qname) _ _ _

/-- C1: in the response path of `mdns_socket_task` (QR bit set), iterating the
concatenated answer+authority+additional record list, a record's address is
inserted into the shared discovered-address set exactly when the record is
A-type (type 1) with class IN (1) or IN|flush (0x8001) and RDLENGTH 4 and a
record whose normalized owner equals the normalized target qname was seen at
or before it in this packet's record list (the flag is sticky across the whole
packet); the inserted value is the record's 4-byte RDATA as a dotted-quad
string — stated as equality with the specification function
`spec_sticky_inserts` over the decoded record list. -/
theorem C1_response_insert_exactly (buf qname host ip : List Nat)
    (h12 : 12 ≤ buf.length) (hr : read_u16 buf 2 &&& 32768 ≠ 0) :
    (mdns_process buf qname host ip).2 =
      spec_sticky_inserts (normalize_dns_name qname)
        (decodeRecords buf (read_u16 buf 6 + read_u16 buf 8 + read_u16 buf 10)
          (skipQuestions buf (read_u16 buf 4) 12)) false :=
  mdns_process_response_eq buf qname host ip h12 hr

theorem C1_witness :
    (mdns_process pktC1w qnameElg hostMe ipMe).2 =
      [[49, 57, 50, 46, 49, 54, 56, 46, 49, 46, 52, 50]] :=
  (C1_response_insert_exactly pktC1w qnameElg hostMe ipMe (by decide) (by decide)).trans
    (by decide)

theorem mem_spec_sticky_inserts (qN : List Nat) :
    ∀ (rl : List RawRR) (flag : Bool) (j : Nat) (hj : j < rl.length),
      (rl.get ⟨j, hj⟩).rtype = 1 →
      ((rl.get ⟨j, hj⟩).rclass = 1 ∨ (rl.get ⟨j, hj⟩).rclass = 32769) →
      (rl.get ⟨j, hj⟩).rdlen = 4 →
      (flag = true ∨ ∃ r' ∈ rl.take (j + 1), normalize_dns_name r'.name = qN) →
      dottedQuadOfBytes (rl.get ⟨j, hj⟩).rdata ∈ spec_sticky_inserts qN rl flag := by
  intro rl
  induction rl with
  | nil => intro flag j hj; exact absurd hj (by simp)
  | cons r rs ih =>
    intro flag j hj ht hc hl hseen
    simp only [spec_sticky_inserts]
    cases j with
    | zero =>
      simp only [List.get] at ht hc hl ⊢
      have hseen' : (flag || decide (normalize_dns_name r.name = qN)) = true := by
        rcases hseen with h | ⟨r', hr', hmatch⟩
        · simp [h]
        · have : r' = r := by
            simp only [List.take, List.mem_cons] at hr'
            rcases hr' with h | h
            · exact h
            · exact absurd h (by simp)
          subst this
          simp [hmatch]
      rw [if_pos ⟨ht, hc, hl, hseen'⟩]
      exact List.mem_cons_self _ _
    | succ j' =>
      simp only [List.get] at ht hc hl ⊢
      have hseen2 : ((flag || decide (normalize_dns_name r.name = qN)) = true) ∨
          ∃ r' ∈ rs.take (j' + 1), normalize_dns_name r'.name = qN := by
        rcases hseen with h | ⟨r', hr', hmatch⟩
        · left; simp [h]
        · simp only [List.take, List.mem_cons] at hr'
          rcases hr' with h | h
          · left; subst h; simp [hmatch]
          · right; exact ⟨r', h, hmatch⟩
      have hmem := ih (flag || decide (normalize_dns_name r.name = qN)) j'
        (by simpa using Nat.lt_of_succ_lt_succ hj) ht hc hl hseen2
      by_cases hcond : r.rtype = 1 ∧ (r.rclass = 1 ∨ r.rclass = 32769) ∧ r.rdlen = 4 ∧
          (flag || decide (normalize_dns_name r.name = qN)) = true
      · rw [if_pos hcond]
        exact List.mem_cons_of_mem _ hmem
      · rw [if_neg hcond]
        exact hmem

theorem spec_sticky_inserts_nil (qN : List Nat) :
    ∀ rl : List RawRR, (∀ r' ∈ rl, normalize_dns_name r'.name ≠ qN) →
      spec_sticky_inserts qN rl false = [] := by
  intro rl
  induction rl with
  | nil => intro _; rfl
  | cons r rs ih =>
    intro h
    simp only [spec_sticky_inserts]
    have hd : decide (normalize_dns_name r.name = qN) = false := by
      simp [h r (List.mem_cons_self r rs)]
    rw [hd]
    simp only [Bool.or_false]
    rw [if_neg (by intro hcc; cases hcc.2.2.2)]
    exact ih fun r' hr' => h r' (List.mem_cons_of_mem r hr')

/-- C2 (amended): for every synthetic response packet, the address of an
A-type record (type 1, class IN or IN|flush, RDLENGTH 4) — such as the A
record of the matching SRV target — is inserted into the discovered set
provided some record whose normalized owner equals the normalized discovery
name (such as the PTR record for `_elg._tcp.local`) occurs at or before it in
the packet's record list; and when no record in the packet is owned by the
discovery name, nothing at all is inserted (so an unrelated A record in such a
packet is not captured).  The original claim held unconditionally; the
counterexample forces the ordering proviso, because the sticky flag only
covers records already iterated. -/
theorem C2_sticky_discovery_amended (buf qname host ip : List Nat) (rl : List RawRR)
    (h12 : 12 ≤ buf.length) (hr : read_u16 buf 2 &&& 32768 ≠ 0)
    (hrl : rl = decodeRecords buf (read_u16 buf 6 + read_u16 buf 8 + read_u16 buf 10)
      (skipQuestions buf (read_u16 buf 4) 12)) :
    (∀ j (hj : j < rl.length), (rl.get ⟨j, hj⟩).rtype = 1 →
      ((rl.get ⟨j, hj⟩).rclass = 1 ∨ (rl.get ⟨j, hj⟩).rclass = 32769) →
      (rl.get ⟨j, hj⟩).rdlen = 4 →
      (∃ r' ∈ rl.take (j + 1), normalize_dns_name r'.name = normalize_dns_name qname) →
      dottedQuadOfBytes (rl.get ⟨j, hj⟩).rdata ∈ (mdns_process buf qname host ip).2) ∧
    ((∀ r' ∈ rl, normalize_dns_name r'.name ≠ normalize_dns_name qname) →
      (mdns_process buf qname host ip).2 = []) := by
  have hproc := mdns_process_response_eq buf qname host ip h12 hr
  rw [← hrl] at hproc
  constructor
  · intro j hj ht hc hl hseen
    rw [hproc]
    exact mem_spec_sticky_inserts (normalize_dns_name qname) rl false j hj ht hc hl
      (Or.inr hseen)
  · intro hnone
    rw [hproc]
    exact spec_sticky_inserts_nil (normalize_dns_name qname) rl hnone

/-- C2 counterexample: the synthetic response packet `pktC2cx` contains the
PTR record owned by the discovery name `_elg._tcp.local`, the SRV record, and
the A record of the matching SRV target `elgato.local`, together with an
unrelated A record for `other.local`; processing it inserts the unrelated
record's address `10.9.9.9` (the claim says it is never inserted) and does not
insert the matching target's address `192.168.1.42` (the claim says it always
is), because the target A record precedes the PTR while the unrelated A record
follows it. -/
theorem C2_counterexample :
    dottedQuad 10 9 9 9 ∈ (mdns_process pktC2cx qnameElg hostMe ipMe).2 ∧
      dottedQuad 192 168 1 42 ∉ (mdns_process pktC2cx qnameElg hostMe ipMe).2 := by
  decide

theorem C2_witness :
    dottedQuad 192 168 1 42 ∈ (mdns_process pktC2good qnameElg hostMe ipMe).2 ∧
      (mdns_process pktC2nomatch qnameElg hostMe ipMe).2 = [] := by
  constructor
  · have h := (C2_sticky_discovery_amended pktC2good qnameElg hostMe ipMe
      (decodeRecords pktC2good 4 12) (by decide) (by decide) (by decide)).1 3 (by decide)
      (by decide) (by decide) (by decide) (by decide)
    have he : dottedQuadOfBytes ((decodeRecords pktC2good 4 12).get ⟨3, by decide⟩).rdata =
        dottedQuad 192 168 1 42 := by decide
    exact he ▸ h
  · exact (C2_sticky_discovery_amended pktC2nomatch qnameElg hostMe ipMe
      (decodeRecords pktC2nomatch 2 12) (by decide) (by decide) (by decide)).2 (by decide)

/-! ## Lemmas about the query path -/

theorem queryScan_eq_find (buf hostN : List Nat) (reply : Option (List Nat)) :
    ∀ cnt offset,
      queryScan buf hostN reply cnt offset =
        match (decodeQuestions buf cnt offset).find?
          (fun q => decide (questionMatches hostN q)) with
        | some _ => [reply]
        | none => [] := by
  intro cnt
  induction cnt with
  | zero => intro offset; rfl
  | succ q ih =>
    intro offset
    simp only [queryScan, decodeQuestions]
    by_cases h1 : buf.length ≤ offset
    · simp only [if_pos h1]; rfl
    · simp only [if_neg h1]
      by_cases h2 : buf.length < (parse_name buf buf.length offset).2 + 4
      · simp only [if_pos h2]; rfl
      · simp only [if_neg h2]
        by_cases h3 : questionMatches hostN
          ⟨(parse_name buf buf.length offset).1, read_u16 buf (parse_name buf buf.length offset).2,
           read_u16 buf ((parse_name buf buf.length offset).2 + 2)⟩
        · rw [if_pos h3, List.find?_cons_of_pos _ (by simpa using h3)]
        · rw [if_neg h3, List.find?_cons_of_neg _ (by simpa using h3), ih]

theorem mdns_process_query_eq (buf qname host ip : List Nat) (h12 : 12 ≤ buf.length)
    (hq : read_u16 buf 2 &&& 32768 = 0) (hqd : 0 < read_u16 buf 4) :
    (mdns_process buf qname host ip).1 =
      queryScan buf (normalize_dns_name host) (send_mdns_a_record host ip)
        (read_u16 buf 4) 12 := by
  simp only [mdns_process]
  rw [if_neg (by omega), if_pos hq, if_pos hqd]

/-- C8: on a packet with the QR bit clear and at least one question,
`mdns_socket_task` sends exactly one A-record announcement (one
`send_mdns_a_record our_hostname our_ip` call) when some decoded question has
qtype A(1)/ANY(255), qclass IN(1)/ANY(255) and normalized name equal to the
normalized configured hostname — namely for the first such question, after
which the remaining questions are not processed — and sends nothing when no
question matches; stated as equality with `List.find?` over the decoded
question list. -/
theorem C8_query_answers_first_match (buf qname host ip : List Nat)
    (h12 : 12 ≤ buf.length) (hq : read_u16 buf 2 &&& 32768 = 0)
    (hqd : 0 < read_u16 buf 4) :
    (mdns_process buf qname host ip).1 =
      match (decodeQuestions buf (read_u16 buf 4) 12).find?
        (fun q => decide (questionMatches (normalize_dns_name host) q)) with
      | some _ => [send_mdns_a_record host ip]
      | none => [] := by
  rw [mdns_process_query_eq buf qname host ip h12 hq hqd, queryScan_eq_find]

theorem C8_witness :
    (mdns_process pktC8w qnameElg hostMe ipMe).1 = [send_mdns_a_record hostMe ipMe] := by
  rw [C8_query_answers_first_match pktC8w qnameElg hostMe ipMe (by decide) (by decide)
    (by decide)]
  decide

/-! ## Lemmas about the name encoder -/

theorem pushNameLoop_eq_split :
    ∀ s cur : List Nat, pushNameLoop s cur = ((splitLabels s cur).map encLabel).flatten := by
  intro s
  induction s with
  | nil =>
    intro cur
    simp only [pushNameLoop, splitLabels, flushLabel]
    by_cases h : cur = []
    · simp [h]
    · simp [h, encLabel]
  | cons c rest ih =>
    intro cur
    simp only [pushNameLoop, splitLabels]
    by_cases h : c = 46
    · simp only [if_pos h]
      by_cases hc : cur = []
      · simp [hc, ih, flushLabel]
      · simp [hc, ih, flushLabel, encLabel]
    · simp only [if_neg h]
      exact ih (cur ++ [c])

/-- C7: for every non-empty qname, `send_mdns_ptr_query` builds exactly the
12-byte QDCOUNT=1 header `00 00 00 00 00 01 00 00 00 00 00 00`, the
length-prefixed non-empty labels of the qname, a zero terminator, QTYPE
`00 0c` (PTR) and QCLASS `00 01` (IN); for `"_elg._tcp.local"` exactly the
spec's example byte sequence; and for an empty qname it returns the `-1`
sentinel without sending. -/
theorem C7_ptr_query_layout (qname : List Nat) (h : qname ≠ []) :
    send_mdns_ptr_query qname =
      some ([0, 0, 0, 0, 0, 1, 0, 0, 0, 0, 0, 0] ++
        ((splitLabels qname []).map encLabel).flatten ++ [0] ++ [0, 12] ++ [0, 1]) ∧
    send_mdns_ptr_query qnameElg =
      some [0, 0, 0, 0, 0, 1, 0, 0, 0, 0, 0, 0,
        4, 95, 101, 108, 103, 4, 95, 116, 99, 112, 5, 108, 111, 99, 97, 108,
        0, 0, 12, 0, 1] ∧
    send_mdns_ptr_query [] = none := by
  refine ⟨?_, by decide, rfl⟩
  unfold send_mdns_ptr_query
  rw [if_neg h, pushNameLoop_eq_split]

theorem C7_witness :
    send_mdns_ptr_query [97] =
      some [0, 0, 0, 0, 0, 1, 0, 0, 0, 0, 0, 0, 1, 97, 0, 0, 12, 0, 1] :=
  (C7_ptr_query_layout [97] (by decide)).1.trans (by decide)

/-! ## Lemmas for the encode/decode round trip -/

theorem splitLabels_append_nodot :
    ∀ (l s cur : List Nat), (∀ c ∈ l, c ≠ 46) →
      splitLabels (l ++ s) cur = splitLabels s (cur ++ l) := by
  intro l
  induction l with
  | nil => intro s cur _; simp
  | cons c l' ih =>
    intro s cur h
    have hc : c ≠ 46 := h c (List.mem_cons_self _ _)
    simp only [List.cons_append, splitLabels, if_neg hc]
    simpa [List.append_assoc] using
      ih s (cur ++ [c]) fun x hx => h x (List.mem_cons_of_mem _ hx)

theorem splitLabels_joinDots :
    ∀ ls : List (List Nat), (∀ l ∈ ls, l ≠ [] ∧ ∀ c ∈ l, c ≠ 46) →
      splitLabels (joinDots ls) [] = ls := by
  intro ls
  induction ls with
  | nil => intro _; rfl
  | cons l ls' ih =>
    intro h
    cases ls' with
    | nil =>
      show splitLabels (joinDots [l]) [] = [l]
      have h1 := splitLabels_append_nodot l [] [] (h l (List.mem_cons_self _ _)).2
      simp only [List.append_nil, List.nil_append] at h1
      simp only [joinDots]
      rw [h1]
      simp [splitLabels, (h l (List.mem_cons_self _ _)).1]
    | cons l₂ ls'' =>
      simp only [joinDots]
      rw [splitLabels_append_nodot l (46 :: joinDots (l₂ :: ls'')) []
        (h l (List.mem_cons_self _ _)).2]
      simp only [List.nil_append]
      simp [splitLabels, (h l (List.mem_cons_self _ _)).1,
        ih fun x hx => h x (List.mem_cons_of_mem _ hx)]

theorem push_name_joinDots (ls : List (List Nat))
    (h : ∀ l ∈ ls, l ≠ [] ∧ ∀ c ∈ l, c ≠ 46) :
    push_name (joinDots ls) = ((ls.map encLabel).flatten) ++ [0] := by
  unfold push_name
  rw [pushNameLoop_eq_split, splitLabels_joinDots ls h]

theorem getD_of_drop_cons (B : List Nat) (i a : Nat) (rest : List Nat)
    (h : B.drop i = a :: rest) : B.getD i 0 = a := by
  have h0 : B[i]? = some a := by
    have h1 := List.getElem?_drop B i 0
    rw [h] at h1
    simpa using h1.symm
  rw [List.getD_eq_getElem?_getD, h0]
  rfl

theorem drop_succ_of_drop_cons (B : List Nat) (i a : Nat) (rest : List Nat)
    (h : B.drop i = a :: rest) : B.drop (i + 1) = rest := by
  have h1 := List.tail_drop B i
  rw [h] at h1
  exact h1.symm

theorem segment_of_drop (B : List Nat) :
    ∀ (l : List Nat) (i : Nat) (rest : List Nat), B.drop i = l ++ rest →
      (List.range l.length).map (fun k => B.getD (i + k) 0) = l := by
  intro l
  induction l with
  | nil => intro i rest _; simp
  | cons a l' ih =>
    intro i rest h
    have ha : B.getD i 0 = a := getD_of_drop_cons B i a (l' ++ rest) (by simpa using h)
    have hd : B.drop (i + 1) = l' ++ rest := drop_succ_of_drop_cons B i a (l' ++ rest)
      (by simpa using h)
    simp only [List.length_cons, List.range_succ_eq_map, List.map_cons, List.map_map]
    refine congrArg₂ List.cons (by simpa using ha) ?_
    refine Eq.trans (List.map_congr_left ?_) (ih (i + 1) rest hd)
    intro k _
    show B.getD (i + (k + 1)) 0 = B.getD (i + 1 + k) 0
    have harith : i + (k + 1) = i + 1 + k := by omega
    rw [harith]

theorem flatten_encLabel_len (ls : List (List Nat)) :
    ls.length ≤ ((ls.map encLabel).flatten).length := by
  induction ls with
  | nil => simp
  | cons l ls' ih =>
    rw [List.map_cons, List.flatten_cons, List.length_append, List.length_cons]
    have hle : 1 ≤ (encLabel l).length := by simp [encLabel]
    omega

theorem pna_decode_labels (B : List Nat) :
    ∀ (ls : List (List Nat)) (fuel i off : Nat) (nm : List Nat),
      (∀ l ∈ ls, l ≠ [] ∧ l.length ≤ 63) →
      B.drop i = (ls.map encLabel).flatten ++ [0] →
      ls.length + 1 ≤ fuel →
      parseNameAux B B.length fuel i 0 false off nm =
        some ((nameAppend nm ls, i + ((ls.map encLabel).flatten).length + 1), 0) := by
  intro ls
  induction ls with
  | nil =>
    intro fuel i off nm _ hdrop hfuel
    obtain ⟨f, rfl⟩ : ∃ f, fuel = f + 1 := ⟨fuel - 1, by omega⟩
    have hilen : B.length - i = 1 := by
      have hlen2 := congrArg List.length hdrop
      rw [List.length_drop] at hlen2
      simpa using hlen2
    have hi : i < B.length := by omega
    have hz : B.getD i 0 = 0 := getD_of_drop_cons B i 0 [] (by simpa using hdrop)
    simp only [parseNameAux]
    rw [if_pos hi, if_pos (show 0 < B.length by omega),
      if_neg (show ¬ B.getD i 0 &&& 192 = 192 by rw [hz]; decide), if_pos hz]
    simp [nameAppend]
  | cons l ls' ih =>
    intro fuel i off nm hok hdrop hfuel
    obtain ⟨f, rfl⟩ : ∃ f, fuel = f + 1 := ⟨fuel - 1, by omega⟩
    have hl := hok l (List.mem_cons_self _ _)
    have hlen : l.length % 256 = l.length := Nat.mod_eq_of_lt (by omega)
    have hdrop' : B.drop i = (l.length % 256) ::
        (l ++ ((ls'.map encLabel).flatten ++ [0])) := by
      simpa [encLabel, List.append_assoc] using hdrop
    have hilen : B.length - i =
        1 + (l.length + ((ls'.map encLabel).flatten.length + 1)) := by
      have hlen2 := congrArg List.length hdrop'
      rw [List.length_drop] at hlen2
      simp only [List.length_cons, List.length_append, List.length_nil] at hlen2
      omega
    have hi : i < B.length := by omega
    have hgi : B.getD i 0 = l.length % 256 := getD_of_drop_cons B i _ _ hdrop'
    have hd1 : B.drop (i + 1) = l ++ ((ls'.map encLabel).flatten ++ [0]) :=
      drop_succ_of_drop_cons B i _ _ hdrop'
    have hnz : B.getD i 0 ≠ 0 := by
      rw [hgi, hlen]
      intro hzz
      exact hl.1 (List.length_eq_zero.mp hzz)
    have h63 : ∀ n, n < 64 → n &&& 192 = 0 := by decide
    have hnp : ¬ B.getD i 0 &&& 192 = 192 := by
      rw [hgi, hlen, h63 l.length (by omega)]
      decide
    have hbound : ¬ B.length < i + 1 + B.getD i 0 := by
      rw [hgi, hlen]
      omega
    have hlab : (List.range l.length).map (fun k => B.getD (i + 1 + k) 0) = l :=
      segment_of_drop B l (i + 1) _ hd1
    have hd2 : B.drop (i + 1 + l.length) = (ls'.map encLabel).flatten ++ [0] := by
      rw [← List.drop_drop, hd1, List.drop_left]
    have hrec := ih f (i + 1 + l.length) (i + 1 + l.length)
      (if nm = [] then l else nm ++ 46 :: l)
      (fun x hx => hok x (List.mem_cons_of_mem _ hx)) hd2 (by simp at hfuel; omega)
    have hlen3 : (((l :: ls').map encLabel).flatten).length =
        (l.length + 1) + ((ls'.map encLabel).flatten).length := by
      rw [List.map_cons, List.flatten_cons, List.length_append]
      simp [encLabel]
    have harith : i + 1 + l.length + ((ls'.map encLabel).flatten).length + 1 =
        i + (((l :: ls').map encLabel).flatten).length + 1 := by
      rw [hlen3]
      omega
    simp only [parseNameAux]
    rw [if_pos hi, if_pos (show 0 < B.length by omega), if_neg hnp, if_neg hnz,
      if_neg hbound, hgi, hlen, hlab]
    rw [harith] at hrec
    exact hrec

theorem nameAppend_ne_nil :
    ∀ (ls : List (List Nat)) (nm : List Nat), nm ≠ [] →
      nameAppend nm ls = nm ++ dotJoinAll ls := by
  intro ls
  induction ls with
  | nil => intro nm _; simp [nameAppend, dotJoinAll]
  | cons l ls' ih =>
    intro nm hnm
    show nameAppend (if nm = [] then l else nm ++ 46 :: l) ls' = _
    rw [if_neg hnm, ih (nm ++ 46 :: l) (by simp)]
    simp [dotJoinAll, List.append_assoc]

theorem joinDots_cons :
    ∀ (ls : List (List Nat)) (l : List Nat), joinDots (l :: ls) = l ++ dotJoinAll ls := by
  intro ls
  induction ls with
  | nil => intro l; simp [joinDots, dotJoinAll]
  | cons l₂ ls'' ih =>
    intro l
    simp only [joinDots]
    rw [show joinDots (l₂ :: ls'') = l₂ ++ dotJoinAll ls'' from ih l₂]
    simp [dotJoinAll, List.append_assoc]

theorem nameAppend_nil_eq_joinDots (ls : List (List Nat)) (h : ∀ l ∈ ls, l ≠ []) :
    nameAppend [] ls = joinDots ls := by
  cases ls with
  | nil => rfl
  | cons l ls' =>
    show nameAppend (if ([] : List Nat) = [] then l else _) ls' = _
    rw [if_pos rfl, nameAppend_ne_nil ls' l (h l (List.mem_cons_self _ _)),
      joinDots_cons ls' l]

/-- C5: name codec round trip — for every domain name made of 1 to 5
non-empty labels of at most 63 bytes each, none containing `'.'`, decoding
the `push_name` encoding of the name starting at offset 0 yields the same
name and a final offset equal to the length of the encoding. -/
theorem C5_name_roundtrip (ls : List (List Nat)) (_hone : 1 ≤ ls.length)
    (_hfive : ls.length ≤ 5)
    (hl : ∀ l ∈ ls, l ≠ [] ∧ l.length ≤ 63 ∧ ∀ c ∈ l, c ≠ 46) :
    parse_name (push_name (joinDots ls)) (push_name (joinDots ls)).length 0 =
      (joinDots ls, (push_name (joinDots ls)).length) := by
  have henc := push_name_joinDots ls fun l hm => ⟨(hl l hm).1, (hl l hm).2.2⟩
  have hBlen : (push_name (joinDots ls)).length =
      ((ls.map encLabel).flatten).length + 1 := by
    rw [henc]
    simp
  have hfl := flatten_encLabel_len ls
  have hfuel : ls.length + 1 ≤ parseFuel (push_name (joinDots ls)).length := by
    unfold parseFuel
    have hsq := Nat.mul_le_mul_right ((push_name (joinDots ls)).length + 1)
      (show 1 ≤ (push_name (joinDots ls)).length + 1 by omega)
    rw [Nat.one_mul] at hsq
    omega
  have hdec := pna_decode_labels (push_name (joinDots ls)) ls
    (parseFuel (push_name (joinDots ls)).length) 0 0 []
    (fun l hm => ⟨(hl l hm).1, (hl l hm).2.1⟩)
    (by rw [List.drop_zero]; exact henc) hfuel
  unfold parse_name
  rw [if_neg (by omega), hdec]
  simp only [Option.getD_some]
  rw [nameAppend_nil_eq_joinDots ls fun l hm => (hl l hm).1]
  rw [hBlen]
  simp

theorem C5_witness :
    parse_name (push_name (joinDots [[97], [98, 99]]))
        (push_name (joinDots [[97], [98, 99]])).length 0 =
      (joinDots [[97], [98, 99]], (push_name (joinDots [[97], [98, 99]])).length) :=
  C5_name_roundtrip [[97], [98, 99]] (by decide) (by decide) (by decide)

/-! ## Lemmas about the announcement builder -/

theorem set_append_add (l₁ l₂ : List Nat) (i v : Nat) :
    (l₁ ++ l₂).set (l₁.length + i) v = l₁ ++ l₂.set i v := by
  induction l₁ with
  | nil => simp
  | cons a t ih =>
    simp only [List.cons_append, List.length_cons]
    have h2 : t.length + 1 + i = t.length + i + 1 := by omega
    rw [h2]
    show List.set (a :: (t ++ l₂)) (t.length + i + 1) v = _
    rw [show List.set (a :: (t ++ l₂)) (t.length + i + 1) v =
      a :: List.set (t ++ l₂) (t.length + i) v from rfl, ih]

theorem set_two_after (pre rd : List Nat) (x y : Nat) :
    ((pre ++ ([0, 0] ++ rd)).set pre.length x).set (pre.length + 1) y =
      pre ++ ([x, y] ++ rd) := by
  have h0 := set_append_add pre ([0, 0] ++ rd) 0 x
  rw [Nat.add_zero] at h0
  have e1 : ([0, 0] ++ rd).set 0 x = [x, 0] ++ rd := rfl
  rw [h0, e1]
  have h1 := set_append_add pre ([x, 0] ++ rd) 1 y
  have e2 : ([x, 0] ++ rd).set 1 y = [x, y] ++ rd := rfl
  rw [h1, e2]

theorem backpatch_u16 (A rd C : List Nat) (hC : C = A ++ pushU16 0 ++ rd) :
    ((C.set A.length ((((C.length - (A ++ pushU16 0).length) % 65536) >>> 8) &&& 255)).set
        (A.length + 1) (((C.length - (A ++ pushU16 0).length) % 65536) &&& 255)) =
      A ++ pushU16 (rd.length % 65536) ++ rd := by
  subst hC
  have hlen : (A ++ pushU16 0 ++ rd).length - (A ++ pushU16 0).length = rd.length := by
    simp only [List.length_append]
    omega
  rw [hlen]
  have h1 : A ++ pushU16 0 ++ rd = A ++ ([0, 0] ++ rd) := by
    rw [show pushU16 0 = [0, 0] from rfl, List.append_assoc]
  rw [h1, set_two_after]
  rw [show pushU16 (rd.length % 65536) =
    [((rd.length % 65536) >>> 8) &&& 255, (rd.length % 65536) &&& 255] from rfl]
  simp [List.append_assoc]

/-- C6: the service announcement built by `send_mdns_announcement` has the
header ID 0, flags 0x8400, QDCOUNT 0, ANCOUNT 3, NSCOUNT 0, ARCOUNT 1,
followed in order by the PTR record (owner `service_type`, TTL 4500, class
IN, RDATA the encoded `instance_name.service_type`), the SRV record (owner
the full instance name, TTL 120, class IN|flush, RDATA priority 0, weight 0,
port, encoded hostname), the TXT record (owner the full instance name, TTL
4500, class IN|flush, RDATA the concatenated length-prefixed strings or one
zero byte when empty), and the A record (owner `hostname`, TTL 120, class
IN|flush, RDATA the 4 IPv4 bytes), each back-patched RDLENGTH equal to its
actual RDATA length; and it returns the `-1` sentinel without sending when
any required string argument is empty or the address does not parse as a
dotted quad. -/
theorem C6_announcement_layout (st inst host ip : List Nat) (port : Nat)
    (txts : List (List Nat)) :
    (∀ a b c d, st ≠ [] → inst ≠ [] → host ≠ [] → ip ≠ [] →
      parse_ipv4 ip = some (a, b, c, d) →
      send_mdns_announcement st inst host ip port txts =
        some (spec_announcement_layout st inst host a b c d port txts)) ∧
    ((st = [] ∨ inst = [] ∨ host = [] ∨ ip = [] ∨ parse_ipv4 ip = none) →
      send_mdns_announcement st inst host ip port txts = none) := by
  constructor
  · intro a b c d hst hinst hhost hip hp
    have hne : ¬ (st = [] ∨ inst = [] ∨ host = [] ∨ ip = []) := by
      simp [hst, hinst, hhost, hip]
    simp only [send_mdns_announcement, if_neg hne, hp]
    rw [backpatch_u16
      ([0, 0, 132, 0, 0, 0, 0, 3, 0, 0, 0, 1] ++ push_name st ++ pushU16 12 ++
        pushU16 1 ++ pushU32 4500)
      (push_name (inst ++ 46 :: st))
      (([0, 0, 132, 0, 0, 0, 0, 3, 0, 0, 0, 1] ++ push_name st ++ pushU16 12 ++
        pushU16 1 ++ pushU32 4500) ++ pushU16 0 ++ push_name (inst ++ 46 :: st))
      rfl]
    rw [backpatch_u16
      (([0, 0, 132, 0, 0, 0, 0, 3, 0, 0, 0, 1] ++ push_name st ++ pushU16 12 ++
          pushU16 1 ++ pushU32 4500 ++
          pushU16 ((push_name (inst ++ 46 :: st)).length % 65536) ++
          push_name (inst ++ 46 :: st)) ++
        push_name (inst ++ 46 :: st) ++ pushU16 33 ++ pushU16 32769 ++ pushU32 120)
      (pushU16 0 ++ pushU16 0 ++ pushU16 port ++ push_name host)
      ((([0, 0, 132, 0, 0, 0, 0, 3, 0, 0, 0, 1] ++ push_name st ++ pushU16 12 ++
          pushU16 1 ++ pushU32 4500 ++
          pushU16 ((push_name (inst ++ 46 :: st)).length % 65536) ++
          push_name (inst ++ 46 :: st)) ++
        push_name (inst ++ 46 :: st) ++ pushU16 33 ++ pushU16 32769 ++ pushU32 120) ++
        pushU16 0 ++ pushU16 0 ++ pushU16 0 ++ pushU16 port ++ push_name host)
      (by simp [List.append_assoc])]
    rw [backpatch_u16
      ((([0, 0, 132, 0, 0, 0, 0, 3, 0, 0, 0, 1] ++ push_name st ++ pushU16 12 ++
          pushU16 1 ++ pushU32 4500 ++
          pushU16 ((push_name (inst ++ 46 :: st)).length % 65536) ++
          push_name (inst ++ 46 :: st)) ++
        push_name (inst ++ 46 :: st) ++ pushU16 33 ++ pushU16 32769 ++ pushU32 120 ++
        pushU16 ((pushU16 0 ++ pushU16 0 ++ pushU16 port ++ push_name host).length % 65536) ++
        (pushU16 0 ++ pushU16 0 ++ pushU16 port ++ push_name host)) ++
        push_name (inst ++ 46 :: st) ++ pushU16 16 ++ pushU16 32769 ++ pushU32 4500)
      (if txts = [] then [0] else (txts.map fun t => (t.length % 256) :: t).flatten)
      (((([0, 0, 132, 0, 0, 0, 0, 3, 0, 0, 0, 1] ++ push_name st ++ pushU16 12 ++
          pushU16 1 ++ pushU32 4500 ++
          pushU16 ((push_name (inst ++ 46 :: st)).length % 65536) ++
          push_name (inst ++ 46 :: st)) ++
        push_name (inst ++ 46 :: st) ++ pushU16 33 ++ pushU16 32769 ++ pushU32 120 ++
        pushU16 ((pushU16 0 ++ pushU16 0 ++ pushU16 port ++ push_name host).length % 65536) ++
        (pushU16 0 ++ pushU16 0 ++ pushU16 port ++ push_name host)) ++
        push_name (inst ++ 46 :: st) ++ pushU16 16 ++ pushU16 32769 ++ pushU32 4500) ++
        pushU16 0 ++
        (if txts = [] then [0] else (txts.map fun t => (t.length % 256) :: t).flatten))
      rfl]
    simp only [spec_announcement_layout]
    simp [List.append_assoc]
  · intro hcase
    by_cases hempty : st = [] ∨ inst = [] ∨ host = [] ∨ ip = []
    · simp only [send_mdns_announcement, if_pos hempty]
    · have hp : parse_ipv4 ip = none := by tauto
      simp only [send_mdns_announcement, if_neg hempty, hp]

theorem C6_witness :
    send_mdns_announcement [95, 97] [105] [104, 46, 108] ipMe 9123 [[107, 61, 118]] =
      some (spec_announcement_layout [95, 97] [105] [104, 46, 108] 1 2 3 4 9123
        [[107, 61, 118]]) ∧
    send_mdns_announcement [] [105] [104, 46, 108] ipMe 9123 [] = none :=
  ⟨(C6_announcement_layout [95, 97] [105] [104, 46, 108] ipMe 9123 [[107, 61, 118]]).1
      1 2 3 4 (by decide) (by decide) (by decide) (by decide) (by decide),
   (C6_announcement_layout [] [105] [104, 46, 108] ipMe 9123 []).2 (Or.inl rfl)⟩

/-! ## Lemmas about the group cache serialization -/

theorem lexLt_irrefl : ∀ a : List Nat, lexLt a a = false := by
  intro a
  induction a with
  | nil => rfl
  | cons c t ih => simp [lexLt, ih]

theorem lexLt_asymm : ∀ a b : List Nat, lexLt a b = true → lexLt b a = false := by
  intro a
  induction a with
  | nil =>
    intro b h
    cases b with
    | nil => simp [lexLt] at h
    | cons c' t' => rfl
  | cons c t ih =>
    intro b h
    cases b with
    | nil => simp [lexLt] at h
    | cons c' t' =>
      simp only [lexLt] at h ⊢
      by_cases h1 : c < c'
      · rw [if_neg (by omega), if_pos h1]
      · by_cases h2 : c' < c
        · rw [if_neg h1, if_pos h2] at h
          exact absurd h (by simp)
        · have hcc : c = c' := by omega
          subst hcc
          rw [if_neg h1, if_neg h2] at h
          rw [if_neg h1, if_neg h2]
          exact ih t' h

theorem mapInsert_append (k : List Nat) (v : List (List Nat)) :
    ∀ m : List (List Nat × List (List Nat)), (∀ p ∈ m, lexLt p.1 k = true) →
      mapInsert k v m = m ++ [(k, v)] := by
  intro m
  induction m with
  | nil => intro _; rfl
  | cons p rest ih =>
    intro h
    obtain ⟨k', v'⟩ := p
    have hlt : lexLt k' k = true := h (k', v') (List.mem_cons_self _ _)
    have hne : k ≠ k' := by
      intro he
      subst he
      simp [lexLt_irrefl] at hlt
    simp only [mapInsert]
    rw [if_neg hne, if_neg (by simp [lexLt_asymm k' k hlt]),
      ih fun q hq => h q (List.mem_cons_of_mem _ hq)]
    simp

theorem gs_no_delim (d : Nat) : ∀ (s cur : List Nat), (∀ c ∈ s, c ≠ d) →
    getlineSplit d s cur = if cur ++ s = [] then [] else [cur ++ s] := by
  intro s
  induction s with
  | nil => intro cur _; simp [getlineSplit]
  | cons c rest ih =>
    intro cur h
    simp only [getlineSplit, if_neg (h c (List.mem_cons_self _ _))]
    rw [ih (cur ++ [c]) fun x hx => h x (List.mem_cons_of_mem _ hx)]
    simp [List.append_assoc]

theorem gs_through_delim (d : Nat) : ∀ (p rest cur : List Nat), (∀ c ∈ p, c ≠ d) →
    getlineSplit d (p ++ d :: rest) cur = (cur ++ p) :: getlineSplit d rest [] := by
  intro p
  induction p with
  | nil => intro rest cur _; simp [getlineSplit]
  | cons c p' ih =>
    intro rest cur h
    simp only [List.cons_append, getlineSplit, if_neg (h c (List.mem_cons_self _ _))]
    simpa [List.append_assoc] using
      ih rest (cur ++ [c]) fun x hx => h x (List.mem_cons_of_mem _ hx)

theorem mem_joinComma : ∀ (ls : List (List Nat)) (c : Nat), c ∈ joinComma ls →
    c = 44 ∨ ∃ s ∈ ls, c ∈ s := by
  intro ls
  induction ls with
  | nil => intro c hc; simp [joinComma] at hc
  | cons s rest ih =>
    intro c hc
    cases rest with
    | nil =>
      right
      exact ⟨s, List.mem_cons_self _ _, by simpa [joinComma] using hc⟩
    | cons s₂ rest' =>
      simp only [joinComma, List.mem_append, List.mem_cons] at hc
      rcases hc with h | h | h
      · right; exact ⟨s, List.mem_cons_self _ _, h⟩
      · left; exact h
      · rcases ih c h with h44 | ⟨s', hs', hc'⟩
        · left; exact h44
        · right; exact ⟨s', List.mem_cons_of_mem _ hs', hc'⟩

theorem getline_joinComma : ∀ ls : List (List Nat), ls ≠ [] →
    (∀ s ∈ ls, s ≠ [] ∧ ∀ c ∈ s, c ≠ 44) →
    getlineSplit 44 (joinComma ls) [] = ls := by
  intro ls
  induction ls with
  | nil => intro h _; exact absurd rfl h
  | cons s rest ih =>
    intro _ h
    cases rest with
    | nil =>
      rw [show joinComma [s] = s from rfl,
        gs_no_delim 44 s [] fun c hc => (h s (List.mem_cons_self _ _)).2 c hc]
      simp [(h s (List.mem_cons_self _ _)).1]
    | cons s₂ rest' =>
      rw [show joinComma (s :: s₂ :: rest') = s ++ 44 :: joinComma (s₂ :: rest') from rfl,
        gs_through_delim 44 s _ [] fun c hc => (h s (List.mem_cons_self _ _)).2 c hc,
        ih (by simp) fun x hx => h x (List.mem_cons_of_mem _ hx)]
      simp

theorem getlineSplit_serialize : ∀ mm : List (List Nat × List (List Nat)),
    (∀ g ∈ mm, (∀ c ∈ g.1, c ≠ 59) ∧ ∀ s ∈ g.2, ∀ c ∈ s, c ≠ 59) →
    getlineSplit 59 (serializeGroups mm) [] =
      mm.map fun g => g.1 ++ 124 :: joinComma g.2 := by
  intro mm
  induction mm with
  | nil => intro _; rfl
  | cons g rest ih =>
    intro h
    have hno : ∀ c ∈ g.1 ++ 124 :: joinComma g.2, c ≠ 59 := by
      intro c hc
      simp only [List.mem_append, List.mem_cons] at hc
      rcases hc with h1 | h1 | h1
      · exact (h g (List.mem_cons_self _ _)).1 c h1
      · subst h1; decide
      · rcases mem_joinComma g.2 c h1 with h44 | ⟨s, hs, hcs⟩
        · subst h44; decide
        · exact (h g (List.mem_cons_self _ _)).2 s hs c hcs
    have hshape : serializeGroups (g :: rest) =
        (g.1 ++ 124 :: joinComma g.2) ++ 59 :: serializeGroups rest := by
      show (g.1 ++ 124 :: (joinComma g.2 ++ [59])) ++ serializeGroups rest = _
      simp [List.append_assoc]
    rw [hshape, gs_through_delim 59 _ _ [] hno,
      ih fun x hx => h x (List.mem_cons_of_mem _ hx)]
    simp

theorem takeWhile_no_pipe : ∀ (l t : List Nat), (∀ c ∈ l, c ≠ 124) →
    (l ++ 124 :: t).takeWhile (fun c => c ≠ 124) = l := by
  intro l
  induction l with
  | nil => intro t _; simp [List.takeWhile_cons]
  | cons c l' ih =>
    intro t h
    simp only [List.cons_append, List.takeWhile_cons]
    rw [if_pos (by simp [h c (List.mem_cons_self _ _)]),
      ih t fun x hx => h x (List.mem_cons_of_mem _ hx)]

theorem deserializeGroupsStep_entry (m : List (List Nat × List (List Nat)))
    (g : List Nat × List (List Nat))
    (hname : g.1 ≠ [] ∧ ∀ c ∈ g.1, c ≠ 124)
    (hser : g.2 ≠ [] ∧ ∀ s ∈ g.2, s ≠ [] ∧ ∀ c ∈ s, c ≠ 44) :
    deserializeGroupsStep m (g.1 ++ 124 :: joinComma g.2) = mapInsert g.1 g.2 m := by
  simp only [deserializeGroupsStep]
  rw [if_neg (by simp), takeWhile_no_pipe g.1 (joinComma g.2) hname.2]
  rw [if_neg (by simp [List.length_append])]
  have hdrop : (g.1 ++ 124 :: joinComma g.2).drop (g.1.length + 1) = joinComma g.2 := by
    rw [show g.1 ++ 124 :: joinComma g.2 = (g.1 ++ [124]) ++ joinComma g.2 by
        simp [List.append_assoc],
      show g.1.length + 1 = (g.1 ++ [124]).length by simp, List.drop_left]
  rw [hdrop, getline_joinComma g.2 hser.1 hser.2]
  rw [show (g.2.filter fun s => s ≠ []) = g.2 from
    List.filter_eq_self.mpr fun s hs => by simp [(hser.2 s hs).1]]
  rw [if_pos ⟨hname.1, hser.1⟩]

theorem deserialize_fold : ∀ (mm : List (List Nat × List (List Nat)))
    (acc : List (List Nat × List (List Nat))),
    mm.Pairwise (fun a b => lexLt a.1 b.1 = true) →
    (∀ p ∈ acc, ∀ g ∈ mm, lexLt p.1 g.1 = true) →
    (∀ g ∈ mm, g.1 ≠ [] ∧ ∀ c ∈ g.1, c ≠ 124) →
    (∀ g ∈ mm, g.2 ≠ [] ∧ ∀ s ∈ g.2, s ≠ [] ∧ ∀ c ∈ s, c ≠ 44) →
    List.foldl deserializeGroupsStep acc (mm.map fun g => g.1 ++ 124 :: joinComma g.2) =
      acc ++ mm := by
  intro mm
  induction mm with
  | nil => intro acc _ _ _ _; simp
  | cons g rest ih =>
    intro acc hpw hacc hname hser
    simp only [List.map_cons, List.foldl_cons]
    rw [deserializeGroupsStep_entry acc g (hname g (List.mem_cons_self _ _))
      (hser g (List.mem_cons_self _ _))]
    rw [mapInsert_append g.1 g.2 acc fun p hp => hacc p hp g (List.mem_cons_self _ _)]
    rw [ih (acc ++ [(g.1, g.2)]) (List.pairwise_cons.mp hpw).2
      (by
        intro p hp q hq
        rcases List.mem_append.mp hp with h1 | h1
        · exact hacc p h1 q (List.mem_cons_of_mem _ hq)
        · have hpg : p = (g.1, g.2) := by simpa using h1
          rw [hpg]
          exact (List.pairwise_cons.mp hpw).1 q hq)
      (fun q hq => hname q (List.mem_cons_of_mem _ hq))
      (fun q hq => hser q (List.mem_cons_of_mem _ hq))]
    simp

/-- C9 (amended): for every group map whose group names and serial numbers
are non-empty strings containing none of the delimiter characters `'|'`,
`','` and `';'` and in which every group has at least one serial number,
deserializing the serialization yields the identical map; the original claim
held without the non-empty-serial-list proviso, which the counterexample
forces because entries whose serial list is empty are silently dropped on
reload. -/
theorem C9_groups_roundtrip (m : List (List Nat × List (List Nat)))
    (hsorted : m.Pairwise fun a b => lexLt a.1 b.1 = true)
    (hname : ∀ g ∈ m, g.1 ≠ [] ∧ ∀ c ∈ g.1, c ≠ 124 ∧ c ≠ 44 ∧ c ≠ 59)
    (hser : ∀ g ∈ m, g.2 ≠ [] ∧ ∀ s ∈ g.2, s ≠ [] ∧ ∀ c ∈ s, c ≠ 124 ∧ c ≠ 44 ∧ c ≠ 59) :
    deserializeGroups (serializeGroups m) = m := by
  unfold deserializeGroups
  rw [getlineSplit_serialize m fun g hg => ⟨fun c hc => ((hname g hg).2 c hc).2.2,
    fun s hs c hc => (((hser g hg).2 s hs).2 c hc).2.2⟩]
  have hfold := deserialize_fold m [] hsorted (by simp)
    (fun g hg => ⟨(hname g hg).1, fun c hc => ((hname g hg).2 c hc).1⟩)
    (fun g hg => ⟨(hser g hg).1, fun s hs => ⟨((hser g hg).2 s hs).1,
      fun c hc => ((((hser g hg).2 s hs).2 c hc)).2.1⟩⟩)
  simpa using hfold

/-- C9 counterexample: the map with the single group `"a"` mapped to the
empty serial list satisfies the claim's hypotheses (its group name is a
non-empty delimiter-free string, and all zero of its serial numbers are),
yet deserializing its serialization yields the empty map, because
`deserializeGroups` silently drops entries whose serial list is empty. -/
theorem C9_counterexample :
    deserializeGroups (serializeGroups [([97], [])]) ≠ [([97], [])] := by decide

theorem C9_witness :
    deserializeGroups (serializeGroups kitchenOfficeMap) = kitchenOfficeMap :=
  C9_groups_roundtrip kitchenOfficeMap (by decide) (by decide) (by decide)

end ElgatoMdns
